import Mathlib

/-!
Verification of the company-name normalisation and deduplication core of
`company_intelligence.py` (CSV cleaner/deduper).

The Python source is shallowly embedded:

* strings are `List Char` (wrapped into `String` at the boundary);
* the regular expressions of the source are embedded as executable scanning
  functions with the exact leftmost-match, greedy semantics of `re.sub`:
  - `re.sub(r"\s+", " ", s)` becomes `collapseWs`,
  - `re.sub(r"\s*\(([^)]+)\)\s*", r" \1 ", s)` becomes `unwrapParens`,
  - each suffix pattern (`\bLTD\b`, ..., `\bL\.?T\.?D\.?(?:\b|$)`, ...)
    becomes a `SuffixPat` interpreted by `patSub`;
* `str.strip()` / `str.strip(" .,-_[]{}")` become `trimWs` / `stripPunct`;
* `str.upper()` is modelled character-wise over the ASCII letters by
  `upChar` (the inputs manipulated by the program are treated at this
  granularity; whitespace is the ASCII whitespace class of `\s`);
* pandas frames become `Frame` (a column-name list plus rows of cells),
  a missing cell is `Cell.na` and `Series.astype(str)` renders it as the
  string "nan", exactly as pandas does for a NaN read by
  `read_csv(..., dtype=str)`;
* `raise ValueError(...)` becomes `Except.error`.

Recursions that a regex engine performs by rescanning (paren unwrapping,
suffix substitution) take an explicit fuel argument; one unit of fuel is
spent per character position, so `l.length` fuel always suffices, which the
wrappers `unwrapParens` / `patSub` supply.
-/

namespace CompanyIntelligence

/-- Whitespace class of the source's `\s` regexes and of `str.strip()`,
at ASCII granularity: space, tab, newline, carriage return, vertical tab,
form feed. -/
def wsChar (c : Char) : Bool :=
  c == ' ' || c == '\t' || c == '\n' || c == '\r' || c == '\x0b' || c == '\x0c'

/-- Word character of the regex `\b` boundary: alphanumeric or underscore. -/
def wordChar (c : Char) : Bool :=
  c.isAlphanum || c == '_'

/-- The character set of line 38's `s.strip(" .,-_[]{}")`. -/
def stripChar (c : Char) : Bool :=
  c == ' ' || c == '.' || c == ',' || c == '-' || c == '_' ||
  c == '[' || c == ']' || c == '\x7b' || c == '\x7d'

/-- Line 28's punctuation replacements: right single quotation mark to
apostrophe, en-dash and em-dash to hyphen-minus. -/
def punctFix (c : Char) : Char :=
  if c = '’' then '\'' else if c = '–' then '-' else if c = '—' then '-' else c

/-- Lower-case ASCII letters paired with their upper-case forms; the table
behind the character-wise model of `str.upper()`. -/
def lowerUpperTable : List (Char × Char) :=
  [('a','A'),('b','B'),('c','C'),('d','D'),('e','E'),('f','F'),('g','G'),
   ('h','H'),('i','I'),('j','J'),('k','K'),('l','L'),('m','M'),('n','N'),
   ('o','O'),('p','P'),('q','Q'),('r','R'),('s','S'),('t','T'),('u','U'),
   ('v','V'),('w','W'),('x','X'),('y','Y'),('z','Z')]

/-- Character-wise `str.upper()`: a lower-case ASCII letter is replaced by
its upper-case form, every other character is kept. -/
def upChar (c : Char) : Char :=
  match lowerUpperTable.find? (fun p => p.1 == c) with
  | some p => p.2
  | none => c

/-- One step of collapsing whitespace runs: of two adjacent whitespace
characters the first is dropped, so each maximal run keeps one character. -/
def squeezeWs : List Char → List Char
  | [] => []
  | [c] => [c]
  | a :: b :: t =>
    if wsChar a && wsChar b then squeezeWs (b :: t) else a :: squeezeWs (b :: t)

/-- `re.sub(r"\s+", " ", s)`: every maximal whitespace run becomes one
single space. -/
def collapseWs (l : List Char) : List Char :=
  (squeezeWs l).map (fun c => if wsChar c then ' ' else c)

/-- Drop the longest suffix of characters satisfying `p`. -/
def dropEndWhile (p : Char → Bool) (l : List Char) : List Char :=
  (l.reverse.dropWhile p).reverse

/-- Python `str.strip()`: drop leading and trailing whitespace. -/
def trimWs (l : List Char) : List Char :=
  dropEndWhile wsChar (l.dropWhile wsChar)

/-- Line 38's `s.strip(" .,-_[]{}")`: drop the listed punctuation characters
from both ends. -/
def stripPunct (l : List Char) : List Char :=
  dropEndWhile stripChar (l.dropWhile stripChar)

/-- Attempt of `\(([^)]+)\)` just after an opening parenthesis: the content
is everything up to the first closing parenthesis, which must exist and the
content must be non-empty.  Returns the content and the rest after `)`. -/
def parenGroup? (cs : List Char) : Option (List Char × List Char) :=
  match cs.dropWhile (fun c => !(c == ')')) with
  | [] => none
  | _ :: rest =>
    if (cs.takeWhile (fun c => !(c == ')'))).isEmpty then none
    else some (cs.takeWhile (fun c => !(c == ')')), rest)

/-- Scanner of `re.sub(r"\s*\(([^)]+)\)\s*", r" \1 ", s)` (line 31): the
leftmost well-formed group, together with the whitespace around it, is
replaced by a space, the content, and a space; scanning resumes after the
replacement. -/
def unwrapGo : Nat → List Char → List Char
  | 0, l => l
  | _ + 1, [] => []
  | f + 1, c :: cs =>
    if wsChar c then
      match (c :: cs).dropWhile wsChar with
      | [] => (c :: cs).takeWhile wsChar
      | d :: cs2 =>
        if d = '(' then
          match parenGroup? cs2 with
          | some (content, r2) =>
            ' ' :: (content ++ ' ' :: unwrapGo f (r2.dropWhile wsChar))
          | none => (c :: cs).takeWhile wsChar ++ unwrapGo f (d :: cs2)
        else (c :: cs).takeWhile wsChar ++ unwrapGo f (d :: cs2)
    else if c = '(' then
      match parenGroup? cs with
      | some (content, r2) =>
        ' ' :: (content ++ ' ' :: unwrapGo f (r2.dropWhile wsChar))
      | none => c :: unwrapGo f cs
    else c :: unwrapGo f cs

/-- The paren-unwrapping substitution of line 31. -/
def unwrapParens (l : List Char) : List Char :=
  unwrapGo l.length l

/-- A compiled suffix pattern of `_SUFFIX_PATTERNS`: either a plain word
with `\b` on both sides (`\bLTD\b`, ...), or letters with an optional
period after each letter and `(?:\b|$)` at the end
(`\bL\.?T\.?D\.?(?:\b|$)`, ...). -/
inductive SuffixPat where
  | word (w : List Char)
  | dotted (w : List Char)
deriving DecidableEq, Repr

/-- Consume one expected character. -/
def eatChar (x : Char) : List Char → Option (List Char)
  | c :: r => if c == x then some r else none
  | [] => none

/-- Consume an expected word. -/
def eatWord : List Char → List Char → Option (List Char)
  | [], l => some l
  | x :: xs, l => (eatChar x l).bind (eatWord xs)

/-- End of a dotted pattern, `\.?(?:\b|$)`, after its last letter.  Greedy:
the final period is consumed when the boundary or end still holds after it
(i.e. at end of string or before a word character); otherwise the period is
left in place, where the boundary between the last letter and the period
always holds.  Without a period, a word character must not follow. -/
def dottedEnd : List Char → Option (List Char)
  | [] => some []
  | c :: r2 =>
    if c = '.' then
      match r2 with
      | [] => some []
      | y :: _ => if wordChar y then some r2 else some (c :: r2)
    else if wordChar c then none else some (c :: r2)

/-- Letters of a dotted pattern after the first: each may be preceded by
one optional period (the `\.?` after the previous letter). -/
def dottedGo : List Char → List Char → Option (List Char)
  | [], r => dottedEnd r
  | x :: xs, r =>
    match r with
    | [] => none
    | c :: r2 =>
      if c = '.' then (eatChar x r2).bind (dottedGo xs)
      else (eatChar x (c :: r2)).bind (dottedGo xs)

/-- End of a plain word pattern: the closing `\b` holds at end of string
or before a non-word character. -/
def wordEnd (rest : List Char) : Option (List Char) :=
  match rest with
  | [] => some []
  | y :: _ => if wordChar y then none else some rest

/-- Match a suffix pattern at the head of `l`; `prevW` tells whether the
character before `l` is a word character (for the leading `\b`). -/
def matchSuffix (p : SuffixPat) (prevW : Bool) (l : List Char) : Option (List Char) :=
  if prevW then none
  else
    match p with
    | .word w => (eatWord w l).bind wordEnd
    | .dotted w =>
      match w with
      | [] => none
      | x :: xs => (eatChar x l).bind (dottedGo xs)

/-- Scanner of `pat.sub(" ", pad)` (line 35): each leftmost match is
replaced by a single space and scanning resumes after it; `prevW` carries
the word-character status of the previous character. -/
def patSubGo (p : SuffixPat) : Nat → Bool → List Char → List Char
  | 0, _, l => l
  | _ + 1, _, [] => []
  | f + 1, prevW, c :: cs =>
    match matchSuffix p prevW (c :: cs) with
    | some rest => ' ' :: patSubGo p f false rest
    | none => c :: patSubGo p f (wordChar c) cs

/-- `pat.sub(" ", l)` for one compiled suffix pattern. -/
def patSub (p : SuffixPat) (l : List Char) : List Char :=
  patSubGo p l.length false l

/-- `_SUFFIX_PATTERNS` (lines 11-22), in source order. -/
def suffixPatterns : List SuffixPat :=
  [ .word ['L','T','D'],
    .word ['L','I','M','I','T','E','D'],
    .word ['L','L','P'],
    .word ['P','L','C'],
    .word ['I','N','C'],
    .word ['C','O','R','P'],
    .dotted ['L','L','P'],
    .dotted ['L','T','D'],
    .dotted ['P','L','C'] ]

/-- The `for pat in _SUFFIX_PATTERNS: pad = pat.sub(" ", pad)` loop
(lines 34-35), over an arbitrary pattern list. -/
def stripAllSuffixes (pats : List SuffixPat) (l : List Char) : List Char :=
  pats.foldl (fun s p => patSub p s) l

/-- The suffix-stripping stage (lines 32-36): pad with one space on each
side, run every pattern substitution in order, then `strip()`; the identity
when `strip_suffixes` is off. -/
def suffixStage (pats : List SuffixPat) (k : Bool) (x : List Char) : List Char :=
  if k then trimWs (stripAllSuffixes pats (' ' :: (x ++ [' ']))) else x

/-- The body of `normalise_company_name` (lines 28-40) on the character
list of an already-string input, parametrised by the pattern list so that
reorderings of `_SUFFIX_PATTERNS` can be compared. -/
def normaliseCore (pats : List SuffixPat) (k : Bool) (l : List Char) : List Char :=
  let s1 := trimWs l
  let s2 := s1.map punctFix
  let s3 := collapseWs s2
  let s4 := s3.map upChar
  let s5 := unwrapParens s4
  let s6 := if k then trimWs (stripAllSuffixes pats (' ' :: (s5 ++ [' ']))) else s5
  let s7 := stripPunct s6
  collapseWs s7

/-- `normalise_company_name` with a reordered pattern list. -/
def normaliseWithPatterns (pats : List SuffixPat) (name : String) (k : Bool) : String :=
  ⟨normaliseCore pats k name.data⟩

/-- `normalise_company_name(name, strip_suffixes)` (lines 24-40) on a value
that is a string (`k` is `strip_suffixes`). -/
def normalise_company_name (name : String) (k : Bool := true) : String :=
  normaliseWithPatterns suffixPatterns name k

/-- A Python value as it may reach `normalise_company_name` directly:
a string or one of the non-string shapes (`None`, NaN, numbers, booleans)
that line 26's `isinstance(name, str)` guard rejects. -/
inductive PyVal where
  | str (v : String)
  | intVal (n : Int)
  | boolVal (b : Bool)
  | noneVal
  | nanVal
deriving DecidableEq, Repr

/-- Whether the value is a Python `str`. -/
def PyVal.isString : PyVal → Bool
  | .str _ => true
  | _ => false

/-- `normalise_company_name` on an arbitrary value: lines 26-27 return the
empty string for every non-string input; the function is pure and total, so
it is deterministic and never raises by construction. -/
def normalisePy (v : PyVal) (k : Bool) : String :=
  match v with
  | .str s => normalise_company_name s k
  | _ => ""

/-- One cell of a pandas frame read by `read_csv(..., dtype=str)`: either a
present string or a missing value (NaN). -/
inductive Cell where
  | na
  | s (v : String)
deriving DecidableEq, Repr

/-- `Series.astype(str)` on one cell: pandas renders a missing value (NaN)
as the string "nan"; a present string is kept. -/
def astypeStr : Cell → String
  | .na => "nan"
  | .s v => v

/-- The canonical name the pipeline computes for one cell (line 48):
`astype(str)` then `normalise_company_name`. -/
def normCell (c : Cell) (k : Bool) : String :=
  normalise_company_name (astypeStr c) k

/-- A pandas DataFrame: named columns and rows of cells (row-major). -/
structure Frame where
  cols : List String
  rows : List (List Cell)
deriving DecidableEq, Repr

/-- Position of a column name, if present. -/
def Frame.colIdx? (df : Frame) (c : String) : Option Nat :=
  df.cols.findIdx? (fun x => x == c)

/-- The values of a column, if present (absent cells of ragged rows read as
missing). -/
def Frame.getCol (df : Frame) (c : String) : Option (List Cell) :=
  (df.colIdx? c).map (fun i => df.rows.map (fun r => r.getD i Cell.na))

/-- `out[c] = vals`: overwrite the column in place if the name exists,
otherwise append it as a new last column. -/
def Frame.setCol (df : Frame) (c : String) (vals : List Cell) : Frame :=
  match df.colIdx? c with
  | some i => ⟨df.cols, (df.rows.zip vals).map (fun rv => rv.1.set i rv.2)⟩
  | none => ⟨df.cols ++ [c], (df.rows.zip vals).map (fun rv => rv.1 ++ [rv.2])⟩

/-- `add_normalised_column` (lines 44-49): reject a frame without the name
column, else copy the frame and assign `_norm_name` from
`out[col].astype(str).map(lambda x: normalise_company_name(x, ...))`. -/
def add_normalised_column (df : Frame) (col : String := "company_name")
    (k : Bool := true) : Except String Frame :=
  match df.colIdx? col with
  | none => .error ("Missing required column: " ++ col)
  | some i =>
    .ok (df.setCol "_norm_name"
      (df.rows.map (fun r => Cell.s (normCell (r.getD i Cell.na) k))))

/-- Pandas `duplicated(subset, keep="first")` followed by the boolean
filter of `drop_duplicates`: a row is kept exactly when no earlier row has
the same key value; `prev` accumulates the rows already scanned. -/
def pandasKeepGo (key : List Cell → Cell) (prev : List (List Cell)) :
    List (List Cell) → List (List Cell)
  | [] => []
  | r :: rs =>
    if prev.any (fun r2 => key r2 == key r) then pandasKeepGo key (prev ++ [r]) rs
    else r :: pandasKeepGo key (prev ++ [r]) rs

/-- `df.drop_duplicates(subset=["_norm_name"]).reset_index(drop=True)`
(line 54); `reset_index` is the identity on the row list.  (Pandas raises a
`KeyError` when the subset column is missing; in `dedupe_by_normalised_name`
the column is always present, so that branch keeps the frame.) -/
def dropDuplicatesByNorm (df : Frame) : Frame :=
  match df.colIdx? "_norm_name" with
  | none => df
  | some i => ⟨df.cols, pandasKeepGo (fun r => r.getD i Cell.na) [] df.rows⟩

/-- `dedupe_by_normalised_name` (lines 51-54): add the `_norm_name` column
with default settings when absent, then drop duplicate keys. -/
def dedupe_by_normalised_name (df : Frame) : Except String Frame :=
  if "_norm_name" ∈ df.cols then .ok (dropDuplicatesByNorm df)
  else
    match add_normalised_column df with
    | .error e => .error e
    | .ok d => .ok (dropDuplicatesByNorm d)

/-- The dedup pipeline of `run` (lines 85-86): `add_normalised_column` with
the configured column and flag, then `dedupe_by_normalised_name`. -/
def dedupePipeline (df : Frame) (col : String := "company_name")
    (k : Bool := true) : Except String Frame :=
  match add_normalised_column df col k with
  | .error e => .error e
  | .ok d => dedupe_by_normalised_name d

/-- Canonical name of a row keyed on the cell at position `i`. -/
def cellKey (i : Nat) (k : Bool) (r : List Cell) : String :=
  normCell (r.getD i Cell.na) k

/-- A row as augmented by `add_normalised_column` when `_norm_name` is a
fresh column. -/
def augRow (i : Nat) (k : Bool) (r : List Cell) : List Cell :=
  r ++ [Cell.s (cellKey i k r)]

/-- Written from the spec's deduplication contract: a single-pass streaming
fold with a seen-keys set that retains, for each distinct key (the empty
string being an ordinary key), only the first element that produced it, in
input order. -/
def firstOccGo {α κ : Type} [DecidableEq κ] (key : α → κ) (seen : List κ) :
    List α → List α
  | [] => []
  | r :: rs =>
    if key r ∈ seen then firstOccGo key seen rs
    else r :: firstOccGo key (key r :: seen) rs

/-- Written from the spec's deduplication contract; see `firstOccGo`. -/
def firstOccurrences {α κ : Type} [DecidableEq κ] (key : α → κ) (l : List α) : List α :=
  firstOccGo key [] l

/-- `_SUFFIX_PATTERNS` with the plain `LLP` pattern and the punctuated
`L.L.P` pattern exchanged: positions 3 and 7 of the source list swapped,
all other patterns in place. -/
def swappedPatterns : List SuffixPat :=
  [ .word ['L','T','D'],
    .word ['L','I','M','I','T','E','D'],
    .dotted ['L','L','P'],
    .word ['P','L','C'],
    .word ['I','N','C'],
    .word ['C','O','R','P'],
    .word ['L','L','P'],
    .dotted ['L','T','D'],
    .dotted ['P','L','C'] ]

/-- First character, if any, is not whitespace. -/
def headOk (l : List Char) : Bool :=
  match l with
  | [] => true
  | c :: _ => !wsChar c

/-- Last character, if any, is not whitespace. -/
def lastOk (l : List Char) : Bool :=
  match l.getLast? with
  | none => true
  | some c => !wsChar c

/-- No two adjacent whitespace characters. -/
def noDoubleWs : List Char → Bool
  | [] => true
  | [_] => true
  | a :: b :: t => !(wsChar a && wsChar b) && noDoubleWs (b :: t)

/-- Every whitespace character of the list is a plain space. -/
def WsOnlySpace (l : List Char) : Prop :=
  ∀ c ∈ l, wsChar c = true → c = ' '

/-- Every character is fixed by the upper-casing map (no lower-case ASCII
letters occur). -/
def UpFixed (l : List Char) : Prop :=
  ∀ c ∈ l, upChar c = c

/-- Every character is fixed by the punctuation substitutions (none of the
replaced punctuation variants occurs). -/
def PunctFixed (l : List Char) : Prop :=
  ∀ c ∈ l, punctFix c = c

/-- The spec's dedup example: three records, of which the first two share
the canonical name "ACME". -/
def exampleFrame : Frame :=
  ⟨["company_name"], [[Cell.s "Acme Ltd"], [Cell.s "ACME LIMITED"], [Cell.s "Beta Inc"]]⟩

/-- A frame with one missing name cell and one whitespace-only name cell. -/
def naFrame : Frame :=
  ⟨["company_name"], [[Cell.na], [Cell.s "  "]]⟩

/-- A two-column frame used to exercise `add_normalised_column`. -/
def twoColFrame : Frame :=
  ⟨["company_name", "city"], [[Cell.s "Acme Ltd", Cell.s "Leeds"], [Cell.s "Beta Inc", Cell.s "York"]]⟩

/-- The deduplicated output frame of `exampleFrame`. -/
def exampleOut : Frame :=
  ⟨["company_name", "_norm_name"],
   [[Cell.s "Acme Ltd", Cell.s "ACME"], [Cell.s "Beta Inc", Cell.s "BETA"]]⟩

/-- A frame whose missing cells and literal "nan" text all share the
canonical name "NAN". -/
def naFrame2 : Frame :=
  ⟨["company_name"], [[Cell.na], [Cell.s "nan"], [Cell.na]]⟩

/-- A frame that already carries a `_norm_name` column (with stale
content), used to exercise the silent overwrite. -/
def overwriteFrame : Frame :=
  ⟨["company_name", "_norm_name"], [[Cell.s "Acme Ltd", Cell.s "junk"]]⟩

-- Sanity checks of the embedding on the spec's documented examples.
example : normalise_company_name "Acme (Holdings) PLC" true = "ACME HOLDINGS" := by decide
example : normalise_company_name "Acme Holdings PLC" true = "ACME HOLDINGS" := by decide
example : normalise_company_name "Acme Holdings PLC" false = "ACME HOLDINGS PLC" := by decide
example : normalise_company_name "Acme   Ltd" true = "ACME" := by decide
example : normalise_company_name " acme ltd " true = "ACME" := by decide
example : normalise_company_name "LTD" true = "" := by decide
example : normalise_company_name "  " true = "" := by decide
example : normalise_company_name "O’Brien & Co. Ltd" true =
    normalise_company_name "O'Brien & Co. Ltd" true := by decide

/-! ### List and frame lemmas -/

theorem zip_map_self {α β γ : Type} (f : α → β) (g : α → β → γ) :
    ∀ l : List α, (l.zip (l.map f)).map (fun p => g p.1 p.2) = l.map (fun a => g a (f a))
  | [] => rfl
  | a :: t => by
    simp only [List.map_cons, List.zip_cons_cons, zip_map_self f g t]

theorem findIdx?_beq_none {cols : List String} {c : String} (h : c ∉ cols) :
    cols.findIdx? (fun x => x == c) = none := by
  rw [List.findIdx?_eq_none_iff]
  intro x hx
  cases hbe : x == c with
  | false => rfl
  | true => exact absurd (beq_iff_eq.mp hbe ▸ hx) h

theorem findIdx?_beq_some {cols : List String} {c : String} (h : c ∈ cols) :
    ∃ i, cols.findIdx? (fun x => x == c) = some i := by
  cases hfi : cols.findIdx? (fun x => x == c) with
  | some i => exact ⟨i, rfl⟩
  | none =>
    rw [List.findIdx?_eq_none_iff] at hfi
    have hc := hfi c h
    simp at hc

theorem findIdx?_beq_spec {cols : List String} {c : String} {i : Nat}
    (h : cols.findIdx? (fun x => x == c) = some i) :
    i < cols.length ∧ cols.getD i "" = c := by
  obtain ⟨hlt, hfi⟩ := List.findIdx?_eq_some_iff_findIdx_eq.mp h
  refine ⟨hlt, ?_⟩
  have hp := ((List.findIdx_eq hlt).mp hfi).1
  rw [List.getD_eq_getElem cols "" hlt]
  exact beq_iff_eq.mp hp

theorem findIdx?_beq_append_self {cols : List String} {c : String} (h : c ∉ cols) :
    (cols ++ [c]).findIdx? (fun x => x == c) = some cols.length := by
  rw [List.findIdx?_append, findIdx?_beq_none h]
  simp

theorem findIdx?_beq_append_left {cols : List String} {c d : String} {i : Nat}
    (h : cols.findIdx? (fun x => x == c) = some i) :
    (cols ++ [d]).findIdx? (fun x => x == c) = some i := by
  rw [List.findIdx?_append, h]
  rfl

theorem getD_append_lt {r : List Cell} {v : Cell} {j : Nat} (h : j < r.length) :
    (r ++ [v]).getD j Cell.na = r.getD j Cell.na := by
  simp [List.getD_eq_getElem?_getD, List.getElem?_append, h]

theorem getD_append_len {r : List Cell} {v : Cell} :
    (r ++ [v]).getD r.length Cell.na = v := by
  simp [List.getD_eq_getElem?_getD, List.getElem?_append]

theorem getD_set_ne {r : List Cell} {m j : Nat} {v : Cell} (h : m ≠ j) :
    (r.set m v).getD j Cell.na = r.getD j Cell.na := by
  simp [List.getD_eq_getElem?_getD, List.getElem?_set_ne h]

theorem getD_set_self {r : List Cell} {m : Nat} {v : Cell} (h : m < r.length) :
    (r.set m v).getD m Cell.na = v := by
  simp [List.getD_eq_getElem?_getD, List.getElem?_set_self h]

theorem keep_eq_firstOcc (key' : List Cell → Cell) (key : List Cell → String)
    (aug : List Cell → List Cell) :
    ∀ (rows prev : List (List Cell)) (seen : List String),
      (∀ r ∈ rows, key' (aug r) = Cell.s (key r)) →
      (∀ x : String, (∃ r2 ∈ prev, key' r2 = Cell.s x) ↔ x ∈ seen) →
      pandasKeepGo key' prev (rows.map aug) = (firstOccGo key seen rows).map aug := by
  intro rows
  induction rows with
  | nil => intro prev seen _ _; rfl
  | cons r rs ih =>
    intro prev seen hr hinv
    have hkey : key' (aug r) = Cell.s (key r) := hr r (by simp)
    have hcond : (prev.any (fun r2 => key' r2 == key' (aug r)) = true) ↔ key r ∈ seen := by
      rw [List.any_eq_true]
      constructor
      · rintro ⟨r2, hr2, hbe⟩
        refine (hinv (key r)).mp ⟨r2, hr2, ?_⟩
        rw [beq_iff_eq] at hbe
        rw [hbe, hkey]
      · intro hs
        obtain ⟨r2, hr2, he⟩ := (hinv (key r)).mpr hs
        exact ⟨r2, hr2, by rw [beq_iff_eq, he, hkey]⟩
    have hrs : ∀ r' ∈ rs, key' (aug r') = Cell.s (key r') :=
      fun r' h' => hr r' (by simp [h'])
    simp only [List.map_cons, pandasKeepGo, firstOccGo]
    by_cases hs : key r ∈ seen
    · rw [if_pos (hcond.mpr hs), if_pos hs]
      refine ih (prev ++ [aug r]) seen hrs ?_
      intro x
      rw [← hinv x]
      constructor
      · rintro ⟨r2, hr2, he⟩
        rcases List.mem_append.mp hr2 with h2 | h2
        · exact ⟨r2, h2, he⟩
        · have h2 : r2 = aug r := by simpa using h2
          subst h2
          rw [hkey] at he
          have hx : key r = x := Cell.s.inj he
          exact (hinv x).mpr (hx ▸ hs)
      · rintro ⟨r2, hr2, he⟩
        exact ⟨r2, List.mem_append_left _ hr2, he⟩
    · rw [if_neg fun hc => hs (hcond.mp hc), if_neg hs]
      have hinv2 : ∀ x : String,
          (∃ r2 ∈ prev ++ [aug r], key' r2 = Cell.s x) ↔ x ∈ key r :: seen := by
        intro x
        constructor
        · rintro ⟨r2, hr2, he⟩
          rcases List.mem_append.mp hr2 with h2 | h2
          · exact List.mem_cons_of_mem _ ((hinv x).mp ⟨r2, h2, he⟩)
          · have h2 : r2 = aug r := by simpa using h2
            subst h2
            rw [hkey] at he
            have hx : key r = x := Cell.s.inj he
            exact hx ▸ List.mem_cons_self _ _
        · intro hx
          rcases List.mem_cons.mp hx with h2 | h2
          · exact ⟨aug r, List.mem_append_right _ (by simp), by rw [hkey, h2]⟩
          · obtain ⟨r2, hr2, he⟩ := (hinv x).mpr h2
            exact ⟨r2, List.mem_append_left _ hr2, he⟩
      rw [ih (prev ++ [aug r]) (key r :: seen) hrs hinv2, List.map_cons]

theorem addNorm_ok {df : Frame} {col : String} {k : Bool} {i : Nat}
    (hi : df.colIdx? col = some i) :
    add_normalised_column df col k =
      .ok (df.setCol "_norm_name" (df.rows.map (fun r => Cell.s (cellKey i k r)))) := by
  unfold add_normalised_column
  rw [hi]
  rfl

theorem setCol_fresh {df : Frame} (h : "_norm_name" ∉ df.cols) (vals : List Cell) :
    df.setCol "_norm_name" vals =
      ⟨df.cols ++ ["_norm_name"], (df.rows.zip vals).map (fun rv => rv.1 ++ [rv.2])⟩ := by
  unfold Frame.setCol Frame.colIdx?
  rw [findIdx?_beq_none h]

theorem pipeline_rows {df : Frame} {col : String} {k : Bool} {i : Nat}
    (hn : "_norm_name" ∉ df.cols) (hi : df.colIdx? col = some i)
    (hw : ∀ r ∈ df.rows, r.length = df.cols.length) :
    dedupePipeline df col k =
      .ok ⟨df.cols ++ ["_norm_name"],
           (firstOccurrences (cellKey i k) df.rows).map (augRow i k)⟩ := by
  have hadd := @addNorm_ok df col k i hi
  rw [setCol_fresh hn] at hadd
  have hrows : (df.rows.zip (df.rows.map (fun r => Cell.s (cellKey i k r)))).map
      (fun rv => rv.1 ++ [rv.2]) = df.rows.map (augRow i k) :=
    zip_map_self (fun r => Cell.s (cellKey i k r)) (fun r v => r ++ [v]) df.rows
  rw [hrows] at hadd
  unfold dedupePipeline
  rw [hadd]
  show dedupe_by_normalised_name ⟨df.cols ++ ["_norm_name"], df.rows.map (augRow i k)⟩ = _
  unfold dedupe_by_normalised_name
  rw [if_pos (show "_norm_name" ∈
        (⟨df.cols ++ ["_norm_name"], df.rows.map (augRow i k)⟩ : Frame).cols from
      List.mem_append_right _ (by simp))]
  unfold dropDuplicatesByNorm Frame.colIdx?
  simp only
  rw [findIdx?_beq_append_self hn]
  simp only [Except.ok.injEq, Frame.mk.injEq, true_and]
  refine keep_eq_firstOcc _ (cellKey i k) (augRow i k) df.rows [] [] ?_ (by simp)
  intro r hrr
  unfold augRow
  rw [← hw r hrr, getD_append_len]

theorem firstOccGo_length_le {α κ : Type} [DecidableEq κ] (key : α → κ) :
    ∀ (seen : List κ) (l : List α), (firstOccGo key seen l).length ≤ l.length
  | _, [] => Nat.le_refl 0
  | seen, r :: rs => by
    simp only [firstOccGo]
    by_cases hs : key r ∈ seen
    · rw [if_pos hs]
      exact Nat.le_succ_of_le (firstOccGo_length_le key seen rs)
    · rw [if_neg hs]
      simpa using Nat.succ_le_succ (firstOccGo_length_le key (key r :: seen) rs)

theorem firstOccGo_mem {α κ : Type} [DecidableEq κ] (key : α → κ) :
    ∀ (seen : List κ) (l : List α) (r : α), r ∈ firstOccGo key seen l → r ∈ l
  | seen, a :: rs, r => by
    simp only [firstOccGo]
    by_cases hs : key a ∈ seen
    · rw [if_pos hs]
      intro h
      exact List.mem_cons_of_mem _ (firstOccGo_mem key seen rs r h)
    · rw [if_neg hs]
      intro h
      rcases List.mem_cons.mp h with h | h
      · exact h ▸ List.mem_cons_self _ _
      · exact List.mem_cons_of_mem _ (firstOccGo_mem key (key a :: seen) rs r h)
  | _, [], r => by intro h; simp [firstOccGo] at h

theorem firstOccGo_key_not_seen {α κ : Type} [DecidableEq κ] (key : α → κ) :
    ∀ (seen : List κ) (l : List α) (r : α), r ∈ firstOccGo key seen l → key r ∉ seen
  | seen, a :: rs, r => by
    simp only [firstOccGo]
    by_cases hs : key a ∈ seen
    · rw [if_pos hs]
      exact firstOccGo_key_not_seen key seen rs r
    · rw [if_neg hs]
      intro h
      rcases List.mem_cons.mp h with h | h
      · exact h ▸ hs
      · intro hm
        exact firstOccGo_key_not_seen key (key a :: seen) rs r h (List.mem_cons_of_mem _ hm)
  | _, [], r => by intro h; simp [firstOccGo] at h

theorem firstOccGo_pairwise {α κ : Type} [DecidableEq κ] (key : α → κ) :
    ∀ (seen : List κ) (l : List α),
      List.Pairwise (fun a b => key a ≠ key b) (firstOccGo key seen l)
  | _, [] => List.Pairwise.nil
  | seen, a :: rs => by
    simp only [firstOccGo]
    by_cases hs : key a ∈ seen
    · rw [if_pos hs]
      exact firstOccGo_pairwise key seen rs
    · rw [if_neg hs]
      refine List.Pairwise.cons ?_ (firstOccGo_pairwise key (key a :: seen) rs)
      intro b hb he
      exact firstOccGo_key_not_seen key (key a :: seen) rs b hb (he ▸ List.mem_cons_self _ _)

theorem colIdx?_none_of_not_mem {df : Frame} {c : String} (h : c ∉ df.cols) :
    df.colIdx? c = none :=
  findIdx?_beq_none h

theorem not_mem_of_colIdx?_none {df : Frame} {c : String} (h : df.colIdx? c = none) :
    c ∉ df.cols := by
  intro hc
  obtain ⟨i, hi⟩ := findIdx?_beq_some hc
  rw [show df.colIdx? c = df.cols.findIdx? (fun x => x == c) from rfl, hi] at h
  cases h

/-! ### Claims C1, C4, C6 (dedup pipeline) -/

/-- C1: for every ordered record frame (name column present at `i`, no
pre-existing `_norm_name`, rows matching the schema), the dedup pipeline's
output rows are exactly the spec's stable first-occurrence filter of the
input rows keyed by canonical name — for each distinct canonical name
(the empty string being an ordinary, matchable key) only the first row
whose name normalises to it survives (augmented with its `_norm_name`
cell), and the output order is the order of first occurrence; no sorting
happens. -/
theorem dedupe_keeps_first_per_canonical_name
    {df : Frame} {col : String} {k : Bool} {i : Nat} {out : Frame}
    (hn : "_norm_name" ∉ df.cols) (hi : df.colIdx? col = some i)
    (hw : ∀ r ∈ df.rows, r.length = df.cols.length)
    (hout : dedupePipeline df col k = .ok out) :
    out.rows = (firstOccurrences (cellKey i k) df.rows).map (augRow i k) := by
  rw [pipeline_rows hn hi hw] at hout
  injection hout with h
  rw [← h]

/-- C1 witness: the spec's own dedup example, evaluated concretely. -/
theorem dedupe_keeps_first_per_canonical_name_witness :
    ("_norm_name" ∉ exampleFrame.cols) ∧
    (exampleFrame.colIdx? "company_name" = some 0) ∧
    (∀ r ∈ exampleFrame.rows, r.length = exampleFrame.cols.length) ∧
    (dedupePipeline exampleFrame "company_name" true = .ok exampleOut) ∧
    exampleOut.rows =
      (firstOccurrences (cellKey 0 true) exampleFrame.rows).map (augRow 0 true) :=
  ⟨by decide, by decide, by decide, rfl,
   @dedupe_keeps_first_per_canonical_name exampleFrame "company_name" true 0 exampleOut
     (by decide) (by decide) (by decide) rfl⟩

/-- C4: a frame without the configured name column makes
`add_normalised_column` fail with the missing-column error before any row
is touched (the check is on the schema only: the statement holds for every
row list), and the pipeline surfaces the same error with no output frame. -/
theorem missing_column_error {df : Frame} {col : String} {k : Bool}
    (h : col ∉ df.cols) :
    add_normalised_column df col k = .error ("Missing required column: " ++ col) ∧
    dedupePipeline df col k = .error ("Missing required column: " ++ col) := by
  have hidx : df.colIdx? col = none := colIdx?_none_of_not_mem h
  have h1 : add_normalised_column df col k = .error ("Missing required column: " ++ col) := by
    unfold add_normalised_column
    rw [hidx]
  refine ⟨h1, ?_⟩
  unfold dedupePipeline
  rw [h1]

/-- C4 witness: the spec's missing-field test evaluated concretely. -/
theorem missing_column_error_witness :
    ("missing_field" ∉ twoColFrame.cols) ∧
    add_normalised_column twoColFrame "missing_field" true =
      .error ("Missing required column: " ++ "missing_field") ∧
    dedupePipeline twoColFrame "missing_field" true =
      .error ("Missing required column: " ++ "missing_field") :=
  ⟨by decide,
   (missing_column_error (by decide)).1,
   (missing_column_error (by decide)).2⟩

/-- C6: the deduplicated output never has more rows than the input, and the
canonical names computed from the output rows' name cells are pairwise
distinct. -/
theorem dedupe_output_card_and_distinct
    {df : Frame} {col : String} {k : Bool} {i : Nat} {out : Frame}
    (hn : "_norm_name" ∉ df.cols) (hi : df.colIdx? col = some i)
    (hw : ∀ r ∈ df.rows, r.length = df.cols.length)
    (hout : dedupePipeline df col k = .ok out) :
    out.rows.length ≤ df.rows.length ∧
    List.Pairwise (fun r1 r2 => cellKey i k r1 ≠ cellKey i k r2) out.rows := by
  rw [pipeline_rows hn hi hw] at hout
  injection hout with h
  rw [← h]
  have hib : i < df.cols.length := (findIdx?_beq_spec hi).1
  constructor
  · rw [List.length_map]
    exact firstOccGo_length_le (cellKey i k) [] df.rows
  · rw [List.pairwise_map]
    have hmemkey : ∀ r ∈ firstOccurrences (cellKey i k) df.rows,
        cellKey i k (augRow i k r) = cellKey i k r := by
      intro r hr
      have hlen : r.length = df.cols.length :=
        hw r (firstOccGo_mem (cellKey i k) [] df.rows r hr)
      unfold augRow cellKey
      rw [getD_append_lt (hlen ▸ hib)]
    refine List.Pairwise.imp_of_mem ?_ (firstOccGo_pairwise (cellKey i k) [] df.rows)
    intro a b ha hb hne
    rw [hmemkey a ha, hmemkey b hb]
    exact hne

/-- C6 witness: concrete instance on the spec's dedup example. -/
theorem dedupe_output_card_and_distinct_witness :
    ("_norm_name" ∉ exampleFrame.cols) ∧
    (dedupePipeline exampleFrame "company_name" true = .ok exampleOut) ∧
    (exampleOut.rows.length ≤ exampleFrame.rows.length ∧
     List.Pairwise (fun r1 r2 => cellKey 0 true r1 ≠ cellKey 0 true r2) exampleOut.rows) :=
  ⟨by decide, rfl,
   @dedupe_output_card_and_distinct exampleFrame "company_name" true 0 exampleOut
     (by decide) (by decide) (by decide) rfl⟩

/-! ### Claims C3, C7, C10 -/

/-- C3 counterexample: in the deduplication pipeline a missing name cell is
NOT treated as the empty string.  `astype(str)` (line 48) renders NaN as
the text "nan", so its canonical name is "NAN"; a whitespace-only cell has
canonical name "", and the two records do not collapse — the pipeline keeps
both rows of `naFrame`, while the claim predicts a single retained row. -/
theorem na_cell_key_is_nan_not_empty :
    normCell Cell.na true = "NAN" ∧ normCell (Cell.s "  ") true = "" ∧
    dedupePipeline naFrame "company_name" true =
      .ok ⟨["company_name", "_norm_name"],
           [[Cell.na, Cell.s "NAN"], [Cell.s "  ", Cell.s ""]]⟩ :=
  ⟨by decide, by decide, rfl⟩

/-- C3 (amended): a record whose name cell is absent is stringified by
`astype(str)` to "nan" before normalisation, so its canonical name is "NAN"
for both suffix settings; absent cells therefore collapse with each other
and with literal "nan" text, not with records that normalise to the empty
string. -/
theorem na_cell_canonical_name_nan :
    (∀ k : Bool, normCell Cell.na k = "NAN") ∧
    dedupePipeline naFrame2 "company_name" true =
      .ok ⟨["company_name", "_norm_name"], [[Cell.na, Cell.s "NAN"]]⟩ :=
  ⟨fun k => by cases k <;> decide, rfl⟩

/-- C7: `normalise_company_name` is modelled by the pure total function
`normalisePy`, so it is deterministic and cannot raise; lines 26-27 send
every non-string input (numbers, booleans, `None`, NaN) to the empty
string. -/
theorem normalise_nonstring_maps_to_empty :
    ∀ (v : PyVal) (k : Bool), v.isString = false → normalisePy v k = "" := by
  intro v k h
  cases v with
  | str s => simp [PyVal.isString] at h
  | intVal n => rfl
  | boolVal b => rfl
  | noneVal => rfl
  | nanVal => rfl

/-- C7 witness: `None` input with suffix stripping on. -/
theorem normalise_nonstring_maps_to_empty_witness :
    PyVal.noneVal.isString = false ∧ normalisePy PyVal.noneVal true = "" :=
  ⟨rfl, normalise_nonstring_maps_to_empty PyVal.noneVal true rfl⟩

/-- C10: `add_normalised_column` works on a copy (`df.copy()`, modelled by
the pure `Frame.setCol`, so the input frame value is untouched by
construction): in the returned frame every column of the input other than
`_norm_name` keeps its values unchanged, and `_norm_name` holds the
computed canonical names — silently overwriting a pre-existing `_norm_name`
column, with no error or warning (the statement has no freshness
hypothesis). -/
theorem addcol_preserves_and_overwrites
    {df : Frame} {col : String} {k : Bool} {i : Nat} {df' : Frame}
    (hi : df.colIdx? col = some i)
    (hw : ∀ r ∈ df.rows, r.length = df.cols.length)
    (hok : add_normalised_column df col k = .ok df') :
    (∀ c ∈ df.cols, c ≠ "_norm_name" → df'.getCol c = df.getCol c) ∧
    df'.getCol "_norm_name" = some (df.rows.map (fun r => Cell.s (cellKey i k r))) := by
  rw [addNorm_ok hi] at hok
  injection hok with h
  rw [← h]
  unfold Frame.setCol
  cases hmn : df.colIdx? "_norm_name" with
  | none =>
    have hrows := zip_map_self (fun r => Cell.s (cellKey i k r))
      (fun r v => r ++ [v]) df.rows
    dsimp only
    rw [hrows]
    constructor
    · intro c hc hcn
      obtain ⟨j, hj⟩ := findIdx?_beq_some hc
      have hjs := findIdx?_beq_spec hj
      unfold Frame.getCol Frame.colIdx?
      simp only
      rw [findIdx?_beq_append_left hj, hj]
      simp only [Option.map_some', Option.some.injEq, List.map_map]
      refine List.map_congr_left ?_
      intro r hr
      simp only [Function.comp]
      exact getD_append_lt ((hw r hr) ▸ hjs.1)
    · have hnm : "_norm_name" ∉ df.cols :=
        @not_mem_of_colIdx?_none df "_norm_name" hmn
      unfold Frame.getCol Frame.colIdx?
      simp only
      rw [findIdx?_beq_append_self hnm]
      simp only [Option.map_some', Option.some.injEq, List.map_map]
      refine List.map_congr_left ?_
      intro r hr
      simp only [Function.comp]
      rw [← hw r hr, getD_append_len]
  | some m =>
    have hrows := zip_map_self (fun r => Cell.s (cellKey i k r))
      (fun r v => r.set m v) df.rows
    dsimp only
    rw [hrows]
    have hms := findIdx?_beq_spec hmn
    constructor
    · intro c hc hcn
      obtain ⟨j, hj⟩ := findIdx?_beq_some hc
      have hjs := findIdx?_beq_spec hj
      have hmj : m ≠ j := by
        intro he
        exact hcn (by rw [← hjs.2, ← he, hms.2])
      unfold Frame.getCol Frame.colIdx?
      simp only
      rw [hj]
      simp only [Option.map_some', Option.some.injEq, List.map_map]
      refine List.map_congr_left ?_
      intro r hr
      simp only [Function.comp]
      exact getD_set_ne hmj
    · unfold Frame.getCol Frame.colIdx?
      simp only
      rw [show List.findIdx? (fun x => x == "_norm_name") df.cols = some m from hmn]
      simp only [Option.map_some', Option.some.injEq, List.map_map]
      refine List.map_congr_left ?_
      intro r hr
      simp only [Function.comp]
      exact getD_set_self ((hw r hr) ▸ hms.1)

/-- C10 witness: a frame with a stale pre-existing `_norm_name` column,
silently overwritten. -/
theorem addcol_preserves_and_overwrites_witness :
    (overwriteFrame.colIdx? "company_name" = some 0) ∧
    (∀ r ∈ overwriteFrame.rows, r.length = overwriteFrame.cols.length) ∧
    (add_normalised_column overwriteFrame "company_name" true =
      .ok ⟨["company_name", "_norm_name"], [[Cell.s "Acme Ltd", Cell.s "ACME"]]⟩) ∧
    ((∀ c ∈ overwriteFrame.cols, c ≠ "_norm_name" →
        (⟨["company_name", "_norm_name"],
          [[Cell.s "Acme Ltd", Cell.s "ACME"]]⟩ : Frame).getCol c = overwriteFrame.getCol c) ∧
     (⟨["company_name", "_norm_name"],
       [[Cell.s "Acme Ltd", Cell.s "ACME"]]⟩ : Frame).getCol "_norm_name" =
       some (overwriteFrame.rows.map (fun r => Cell.s (cellKey 0 true r)))) :=
  ⟨by decide, by decide, rfl,
   @addcol_preserves_and_overwrites overwriteFrame "company_name" true 0
     ⟨["company_name", "_norm_name"], [[Cell.s "Acme Ltd", Cell.s "ACME"]]⟩
     (by decide) (by decide) rfl⟩

/-! ### Claim C5 (suffix pattern order) -/

/-- C5 counterexample: it is not the case that every permutation of
`_SUFFIX_PATTERNS` yields the same normalised output as the fixed order on
every string.  `swappedPatterns` is a permutation of the source list
(positions 3 and 7 exchanged), yet on the input "A LLP.X" it gives
"A X" where the fixed order gives "A .X". -/
theorem suffix_order_affects_result :
    ¬ ∀ (pats : List SuffixPat), pats.Perm suffixPatterns →
        ∀ (s : String) (k : Bool),
          normaliseWithPatterns pats s k = normaliseWithPatterns suffixPatterns s k := by
  intro h
  have hc := h swappedPatterns (by decide) "A LLP.X" true
  exact absurd hc (by decide)

/-- C5 (amended): the suffix matches are not mutually exclusive, and the
application order can affect the final result.  On the padded string
" A LLP.X " the plain `\bLLP\b` pattern substitutes the span "LLP" while
the punctuated `\bL\.?L\.?P\.?(?:\b|$)` pattern substitutes the
overlapping span "LLP.", so whichever runs first wins: under the source's
fixed order the plain pattern comes first and "A LLP.X" normalises to
"A .X" (the period survives); under the permutation that runs the
punctuated pattern first it normalises to "A X". -/
theorem fixed_order_suffix_behaviour :
    swappedPatterns.Perm suffixPatterns ∧
    patSub (SuffixPat.word ['L','L','P']) " A LLP.X ".data = " A  .X ".data ∧
    patSub (SuffixPat.dotted ['L','L','P']) " A LLP.X ".data = " A  X ".data ∧
    normalise_company_name "A LLP.X" true = "A .X" ∧
    normaliseWithPatterns swappedPatterns "A LLP.X" true = "A X" :=
  ⟨by decide, by decide, by decide, by decide, by decide⟩

/-! ### Character lemmas -/

theorem bool_eq_false {b : Bool} (h : ¬ b = true) : b = false := by
  cases b
  · rfl
  · exact absurd rfl h

theorem band_iff {a b : Bool} : (a && b) = true ↔ (a = true ∧ b = true) := by
  cases a <;> cases b <;> simp

theorem bnot_true {b : Bool} (h : (!b) = true) : b = false := by
  cases b
  · rfl
  · exact absurd h (by simp)

theorem upChar_eq_of_none {c : Char}
    (h : lowerUpperTable.find? (fun p => p.1 == c) = none) : upChar c = c := by
  unfold upChar
  rw [h]

theorem upChar_eq_of_some {c : Char} {p : Char × Char}
    (h : lowerUpperTable.find? (fun p => p.1 == c) = some p) : upChar c = p.2 := by
  unfold upChar
  rw [h]

theorem upChar_table_fixed : ∀ p ∈ lowerUpperTable, upChar p.2 = p.2 := by decide

theorem upChar_table_ws : ∀ p ∈ lowerUpperTable, wsChar p.1 = false ∧ wsChar p.2 = false := by
  decide

theorem upChar_table_punct : ∀ p ∈ lowerUpperTable, punctFix p.2 = p.2 := by decide

theorem upChar_idem (c : Char) : upChar (upChar c) = upChar c := by
  cases hf : lowerUpperTable.find? (fun p => p.1 == c) with
  | none => rw [upChar_eq_of_none hf, upChar_eq_of_none hf]
  | some p =>
    rw [upChar_eq_of_some hf]
    exact upChar_table_fixed p (List.mem_of_find?_eq_some hf)

theorem wsChar_upChar (c : Char) : wsChar (upChar c) = wsChar c := by
  cases hf : lowerUpperTable.find? (fun p => p.1 == c) with
  | none => rw [upChar_eq_of_none hf]
  | some p =>
    rw [upChar_eq_of_some hf]
    have hmem := List.mem_of_find?_eq_some hf
    have hpc0 := List.find?_some hf
    have hpc : p.1 = c := by simpa using hpc0
    rw [← hpc, (upChar_table_ws p hmem).1, (upChar_table_ws p hmem).2]

theorem punctFix_eq_self {c : Char} (h1 : c ≠ '’') (h2 : c ≠ '–') (h3 : c ≠ '—') :
    punctFix c = c := by
  unfold punctFix
  rw [if_neg h1, if_neg h2, if_neg h3]

theorem punctFix_idem (c : Char) : punctFix (punctFix c) = punctFix c := by
  by_cases h1 : c = '’'
  · subst h1; decide
  by_cases h2 : c = '–'
  · subst h2; decide
  by_cases h3 : c = '—'
  · subst h3; decide
  rw [punctFix_eq_self h1 h2 h3, punctFix_eq_self h1 h2 h3]

theorem wsChar_punctFix (c : Char) : wsChar (punctFix c) = wsChar c := by
  by_cases h1 : c = '’'
  · subst h1; decide
  by_cases h2 : c = '–'
  · subst h2; decide
  by_cases h3 : c = '—'
  · subst h3; decide
  rw [punctFix_eq_self h1 h2 h3]

theorem punctFix_upChar {c : Char} (h : punctFix c = c) :
    punctFix (upChar c) = upChar c := by
  cases hf : lowerUpperTable.find? (fun p => p.1 == c) with
  | none => rw [upChar_eq_of_none hf]; exact h
  | some p =>
    rw [upChar_eq_of_some hf]
    exact upChar_table_punct p (List.mem_of_find?_eq_some hf)

/-! ### Whitespace collapsing lemmas -/

theorem squeezeWs_sublist : ∀ l : List Char, (squeezeWs l).Sublist l
  | [] => List.Sublist.refl _
  | [c] => List.Sublist.refl _
  | a :: b :: t => by
    simp only [squeezeWs]
    by_cases h : (wsChar a && wsChar b) = true
    · rw [if_pos h]
      exact (squeezeWs_sublist (b :: t)).cons _
    · rw [if_neg h]
      exact (squeezeWs_sublist (b :: t)).cons₂ _

theorem mem_collapseWs {c : Char} {l : List Char} (h : c ∈ collapseWs l) :
    c = ' ' ∨ c ∈ l := by
  unfold collapseWs at h
  obtain ⟨d, hd, he⟩ := List.mem_map.mp h
  by_cases hw : wsChar d = true
  · rw [if_pos hw] at he
    exact Or.inl he.symm
  · rw [if_neg hw] at he
    exact Or.inr (he ▸ (squeezeWs_sublist l).mem hd)

theorem wsOnly_collapseWs (l : List Char) : WsOnlySpace (collapseWs l) := by
  intro c hc hw
  unfold collapseWs at hc
  obtain ⟨d, _, he⟩ := List.mem_map.mp hc
  by_cases hd : wsChar d = true
  · rw [if_pos hd] at he
    exact he.symm
  · rw [if_neg hd] at he
    rw [← he] at hw
    exact absurd hw hd

theorem squeezeWs_head {l : List Char} {c0 : Char}
    (h : l.head? = some c0) (hw : wsChar c0 = false) :
    (squeezeWs l).head? = some c0 := by
  cases l with
  | nil => cases h
  | cons a t =>
    have ha : a = c0 := by injection h
    subst ha
    cases t with
    | nil => rfl
    | cons b t2 =>
      simp only [squeezeWs]
      rw [if_neg (by rw [hw]; simp)]
      rfl

theorem squeezeWs_ne_nil : ∀ l : List Char, l ≠ [] → squeezeWs l ≠ []
  | [], h => absurd rfl h
  | [c], _ => by simp [squeezeWs]
  | a :: b :: t, _ => by
    simp only [squeezeWs]
    by_cases h : (wsChar a && wsChar b) = true
    · rw [if_pos h]
      exact squeezeWs_ne_nil (b :: t) (by simp)
    · rw [if_neg h]
      simp

theorem squeezeWs_getLast? : ∀ l : List Char, (squeezeWs l).getLast? = l.getLast?
  | [] => rfl
  | [c] => rfl
  | a :: b :: t => by
    simp only [squeezeWs]
    by_cases h : (wsChar a && wsChar b) = true
    · rw [if_pos h, squeezeWs_getLast? (b :: t), List.getLast?_cons_cons]
    · rw [if_neg h]
      obtain ⟨x, xs, hm⟩ :=
        List.exists_cons_of_ne_nil (squeezeWs_ne_nil (b :: t) (by simp))
      rw [hm]
      have h1 : (a :: x :: xs).getLast? = (x :: xs).getLast? := List.getLast?_cons_cons
      rw [h1, ← hm, squeezeWs_getLast? (b :: t)]
      exact (List.getLast?_cons_cons).symm

theorem collapseWs_head {l : List Char} {c0 : Char}
    (h : l.head? = some c0) (hw : wsChar c0 = false) :
    (collapseWs l).head? = some c0 := by
  unfold collapseWs
  rw [List.head?_map, squeezeWs_head h hw]
  simp [hw]

theorem collapseWs_getLast {l : List Char} {c0 : Char}
    (h : l.getLast? = some c0) (hw : wsChar c0 = false) :
    (collapseWs l).getLast? = some c0 := by
  unfold collapseWs
  rw [List.getLast?_map, squeezeWs_getLast? l, h]
  simp [hw]

theorem noDoubleWs_cons_left {a : Char} {m : List Char}
    (ha : wsChar a = false) (hm : noDoubleWs m = true) :
    noDoubleWs (a :: m) = true := by
  cases m with
  | nil => rfl
  | cons x xs =>
    show (!(wsChar a && wsChar x) && noDoubleWs (x :: xs)) = true
    refine band_iff.mpr ⟨?_, hm⟩
    rw [ha]
    simp

theorem noDoubleWs_squeeze : ∀ l : List Char, noDoubleWs (squeezeWs l) = true
  | [] => rfl
  | [c] => rfl
  | a :: b :: t => by
    simp only [squeezeWs]
    by_cases hab : (wsChar a && wsChar b) = true
    · rw [if_pos hab]
      exact noDoubleWs_squeeze (b :: t)
    · rw [if_neg hab]
      by_cases hb : wsChar b = true
      · have ha : wsChar a = false := by
          cases hA : wsChar a with
          | false => rfl
          | true => exact absurd (by simp [hA, hb] : (wsChar a && wsChar b) = true) hab
        exact noDoubleWs_cons_left ha (noDoubleWs_squeeze (b :: t))
      · obtain ⟨x, xs, hm⟩ :=
          List.exists_cons_of_ne_nil (squeezeWs_ne_nil (b :: t) (by simp))
        have hh : (squeezeWs (b :: t)).head? = some b :=
          squeezeWs_head rfl (bool_eq_false hb)
        have hx : x = b := by
          rw [hm, List.head?_cons] at hh
          exact Option.some.inj hh
        rw [hm]
        show (!(wsChar a && wsChar x) && noDoubleWs (x :: xs)) = true
        refine band_iff.mpr ⟨?_, ?_⟩
        · rw [hx, bool_eq_false hb]
          simp
        · rw [← hm]
          exact noDoubleWs_squeeze (b :: t)

theorem noDoubleWs_map {f : Char → Char} (hf : ∀ c, wsChar (f c) = wsChar c) :
    ∀ l : List Char, noDoubleWs l = true → noDoubleWs (l.map f) = true
  | [] => fun _ => rfl
  | [c] => fun _ => rfl
  | a :: b :: t => fun h => by
    have h12 := band_iff.mp
      (show (!(wsChar a && wsChar b) && noDoubleWs (b :: t)) = true from h)
    show (!(wsChar (f a) && wsChar (f b)) && noDoubleWs (f b :: List.map f t)) = true
    refine band_iff.mpr ⟨?_, ?_⟩
    · rw [hf a, hf b]
      exact h12.1
    · have hind := noDoubleWs_map hf (b :: t) h12.2
      simpa using hind

theorem noDoubleWs_collapseWs (l : List Char) : noDoubleWs (collapseWs l) = true := by
  unfold collapseWs
  refine noDoubleWs_map ?_ _ (noDoubleWs_squeeze l)
  intro c
  by_cases hc : wsChar c = true
  · rw [if_pos hc, hc]
    rfl
  · rw [if_neg hc]

theorem squeezeWs_eq_self : ∀ l : List Char, noDoubleWs l = true → squeezeWs l = l
  | [], _ => rfl
  | [c], _ => rfl
  | a :: b :: t, h => by
    have h12 := band_iff.mp
      (show (!(wsChar a && wsChar b) && noDoubleWs (b :: t)) = true from h)
    have hab : (wsChar a && wsChar b) = false := bnot_true h12.1
    simp only [squeezeWs]
    rw [if_neg (by simp [hab]), squeezeWs_eq_self (b :: t) h12.2]

theorem collapseWs_eq_self {l : List Char}
    (h1 : WsOnlySpace l) (h2 : noDoubleWs l = true) : collapseWs l = l := by
  unfold collapseWs
  rw [squeezeWs_eq_self l h2]
  have hfix : ∀ c ∈ l, (if wsChar c then ' ' else c) = c := by
    intro c hc
    by_cases hw : wsChar c = true
    · rw [if_pos hw]
      exact (h1 c hc hw).symm
    · rw [if_neg hw]
  rw [List.map_congr_left hfix, List.map_id']


/-! ### Membership bounds for the regex scanners -/

theorem dropEndWhile_sublist (p : Char → Bool) (l : List Char) :
    (dropEndWhile p l).Sublist l := by
  unfold dropEndWhile
  have h := ((List.dropWhile_sublist p : (l.reverse.dropWhile p).Sublist l.reverse)).reverse
  rwa [List.reverse_reverse] at h

theorem trimWs_sublist (l : List Char) : (trimWs l).Sublist l :=
  (dropEndWhile_sublist _ _).trans (List.dropWhile_sublist _)

theorem stripPunct_sublist (l : List Char) : (stripPunct l).Sublist l :=
  (dropEndWhile_sublist _ _).trans (List.dropWhile_sublist _)

theorem parenGroup?_sublists {cs content r2 : List Char}
    (h : parenGroup? cs = some (content, r2)) :
    content.Sublist cs ∧ r2.Sublist cs := by
  unfold parenGroup? at h
  split at h
  · cases h
  · rename_i d rest heq
    split at h
    · cases h
    · injection h with h2
      injection h2 with hc hr
      constructor
      · rw [← hc]
        exact List.takeWhile_sublist _
      · rw [← hr]
        have hs : (d :: rest).Sublist cs := by
          rw [← heq]
          exact List.dropWhile_sublist _
        exact (List.sublist_cons_self d rest).trans hs

theorem mem_unwrapGo : ∀ (f : Nat) (l : List Char) (c : Char),
    c ∈ unwrapGo f l → c = ' ' ∨ c ∈ l
  | 0, l, c => fun h => Or.inr h
  | _ + 1, [], c => fun h => absurd h (by simp [unwrapGo])
  | f + 1, c0 :: cs, c => by
    intro h
    simp only [unwrapGo] at h
    split at h
    · split at h
      · exact Or.inr ((List.takeWhile_sublist wsChar).mem h)
      · rename_i d cs2 heq
        have hdcs : (d :: cs2).Sublist (c0 :: cs) := by
          rw [← heq]
          exact List.dropWhile_sublist wsChar
        have hcs2 : cs2.Sublist (c0 :: cs) :=
          (List.sublist_cons_self d cs2).trans hdcs
        split at h
        · split at h
          · rename_i content r2 hpg
            rcases List.mem_cons.mp h with hc | hc
            · exact Or.inl hc
            rcases List.mem_append.mp hc with hc | hc
            · exact Or.inr (((parenGroup?_sublists hpg).1.trans hcs2).mem hc)
            rcases List.mem_cons.mp hc with hc | hc
            · exact Or.inl hc
            rcases mem_unwrapGo f _ c hc with hc | hc
            · exact Or.inl hc
            · have hr2 : (r2.dropWhile wsChar).Sublist (c0 :: cs) :=
                (List.dropWhile_sublist wsChar).trans
                  ((parenGroup?_sublists hpg).2.trans hcs2)
              exact Or.inr (hr2.mem hc)
          · rcases List.mem_append.mp h with hc | hc
            · exact Or.inr ((List.takeWhile_sublist wsChar).mem hc)
            rcases mem_unwrapGo f _ c hc with hc | hc
            · exact Or.inl hc
            · exact Or.inr (hdcs.mem hc)
        · rcases List.mem_append.mp h with hc | hc
          · exact Or.inr ((List.takeWhile_sublist wsChar).mem hc)
          rcases mem_unwrapGo f _ c hc with hc | hc
          · exact Or.inl hc
          · exact Or.inr (hdcs.mem hc)
    · split at h
      · split at h
        · rename_i content r2 hpg
          rcases List.mem_cons.mp h with hc | hc
          · exact Or.inl hc
          rcases List.mem_append.mp hc with hc | hc
          · exact Or.inr (List.mem_cons_of_mem _ ((parenGroup?_sublists hpg).1.mem hc))
          rcases List.mem_cons.mp hc with hc | hc
          · exact Or.inl hc
          rcases mem_unwrapGo f _ c hc with hc | hc
          · exact Or.inl hc
          · have hr2 : (r2.dropWhile wsChar).Sublist cs :=
              (List.dropWhile_sublist wsChar).trans (parenGroup?_sublists hpg).2
            exact Or.inr (List.mem_cons_of_mem _ (hr2.mem hc))
        · rcases List.mem_cons.mp h with hc | hc
          · exact Or.inr (hc ▸ List.mem_cons_self _ _)
          rcases mem_unwrapGo f _ c hc with hc | hc
          · exact Or.inl hc
          · exact Or.inr (List.mem_cons_of_mem _ hc)
      · rcases List.mem_cons.mp h with hc | hc
        · exact Or.inr (hc ▸ List.mem_cons_self _ _)
        rcases mem_unwrapGo f _ c hc with hc | hc
        · exact Or.inl hc
        · exact Or.inr (List.mem_cons_of_mem _ hc)

theorem eatChar_sublist {x : Char} {l r : List Char} (h : eatChar x l = some r) :
    r.Sublist l := by
  cases l with
  | nil => cases h
  | cons a t =>
    simp only [eatChar] at h
    split at h
    · injection h with h2
      exact h2 ▸ List.sublist_cons_self a t
    · cases h

theorem eatWord_sublist : ∀ {w l r : List Char}, eatWord w l = some r → r.Sublist l := by
  intro w
  induction w with
  | nil =>
    intro l r h
    injection h with h2
    exact h2 ▸ List.Sublist.refl _
  | cons x xs ih =>
    intro l r h
    simp only [eatWord] at h
    cases he : eatChar x l with
    | none => rw [he] at h; cases h
    | some r1 =>
      rw [he] at h
      exact (ih h).trans (eatChar_sublist he)

theorem wordEnd_sublist {r rest : List Char} (h : wordEnd r = some rest) :
    rest.Sublist r := by
  cases r with
  | nil =>
    injection h with h2
    exact h2 ▸ List.Sublist.refl _
  | cons y ys =>
    simp only [wordEnd] at h
    split at h
    · cases h
    · injection h with h2
      exact h2 ▸ List.Sublist.refl _

theorem dottedEnd_sublist : ∀ {r rest : List Char}, dottedEnd r = some rest → rest.Sublist r := by
  intro r rest h
  cases r with
  | nil =>
    injection h with h2
    rw [← h2]
  | cons c r2 =>
    simp only [dottedEnd] at h
    split at h
    · split at h
      · injection h with h2
        rw [← h2]
        exact List.nil_sublist _
      · split at h
        · injection h with h2
          rw [← h2]
          exact List.sublist_cons_self _ _
        · injection h with h2
          rw [← h2]
    · split at h
      · cases h
      · injection h with h2
        rw [← h2]

theorem dottedGo_sublist : ∀ {xs r rest : List Char}, dottedGo xs r = some rest → rest.Sublist r := by
  intro xs
  induction xs with
  | nil => exact fun h => dottedEnd_sublist h
  | cons x xs ih =>
    intro r rest h
    cases r with
    | nil => cases h
    | cons c r2 =>
      simp only [dottedGo] at h
      split at h
      · cases he : eatChar x r2 with
        | none => rw [he] at h; cases h
        | some r3 =>
          rw [he] at h
          simp only [Option.some_bind] at h
          exact ((ih h).trans (eatChar_sublist he)).trans (List.sublist_cons_self _ _)
      · cases he : eatChar x (c :: r2) with
        | none => rw [he] at h; cases h
        | some r3 =>
          rw [he] at h
          simp only [Option.some_bind] at h
          exact (ih h).trans (eatChar_sublist he)

theorem matchSuffix_sublist {p : SuffixPat} {prevW : Bool} {l rest : List Char}
    (h : matchSuffix p prevW l = some rest) : rest.Sublist l := by
  unfold matchSuffix at h
  split at h
  · cases h
  · split at h
    · rename_i w
      cases he : eatWord w l with
      | none => rw [he] at h; cases h
      | some r0 =>
        rw [he] at h
        simp only [Option.some_bind] at h
        exact (wordEnd_sublist h).trans (eatWord_sublist he)
    · rename_i w
      split at h
      · cases h
      · rename_i x xs
        cases he : eatChar x l with
        | none => rw [he] at h; cases h
        | some r1 =>
          rw [he] at h
          simp only [Option.some_bind] at h
          exact (dottedGo_sublist h).trans (eatChar_sublist he)

theorem mem_patSubGo {p : SuffixPat} : ∀ (f : Nat) (prevW : Bool) (l : List Char) (c : Char),
    c ∈ patSubGo p f prevW l → c = ' ' ∨ c ∈ l
  | 0, _, l, c => fun h => Or.inr h
  | _ + 1, _, [], c => fun h => absurd h (by simp [patSubGo])
  | f + 1, prevW, c0 :: cs, c => by
    intro h
    simp only [patSubGo] at h
    split at h
    · rename_i rest hm
      rcases List.mem_cons.mp h with hc | hc
      · exact Or.inl hc
      rcases mem_patSubGo f false rest c hc with hc | hc
      · exact Or.inl hc
      · exact Or.inr ((matchSuffix_sublist hm).mem hc)
    · rcases List.mem_cons.mp h with hc | hc
      · exact Or.inr (hc ▸ List.mem_cons_self _ _)
      rcases mem_patSubGo f (wordChar c0) cs c hc with hc | hc
      · exact Or.inl hc
      · exact Or.inr (List.mem_cons_of_mem _ hc)

theorem mem_patSub {p : SuffixPat} {l : List Char} {c : Char}
    (h : c ∈ patSub p l) : c = ' ' ∨ c ∈ l :=
  mem_patSubGo _ _ _ _ h

theorem mem_stripAll : ∀ (pats : List SuffixPat) (l : List Char) (c : Char),
    c ∈ stripAllSuffixes pats l → c = ' ' ∨ c ∈ l
  | [], l, c => fun h => Or.inr h
  | p :: ps, l, c => fun h => by
    have h1 := mem_stripAll ps (patSub p l) c h
    rcases h1 with h1 | h1
    · exact Or.inl h1
    · exact mem_patSub h1

theorem mem_suffixStage {pats : List SuffixPat} {k : Bool} {x : List Char} {c : Char}
    (h : c ∈ suffixStage pats k x) : c = ' ' ∨ c ∈ x := by
  unfold suffixStage at h
  by_cases hk : k = true
  · rw [if_pos hk] at h
    have h1 := mem_stripAll pats _ c ((trimWs_sublist _).mem h)
    rcases h1 with h1 | h1
    · exact Or.inl h1
    rcases List.mem_cons.mp h1 with h1 | h1
    · exact Or.inl h1
    rcases List.mem_append.mp h1 with h1 | h1
    · exact Or.inr h1
    · exact Or.inl (by simpa using h1)
  · rw [if_neg hk] at h
    exact Or.inr h

/-! ### Invariants of the normalised output -/

theorem wsOnly_of_mem {x y : List Char}
    (hsub : ∀ c ∈ y, c = ' ' ∨ c ∈ x) (hx : WsOnlySpace x) : WsOnlySpace y := by
  intro c hc hw
  rcases hsub c hc with h | h
  · exact h
  · exact hx c h hw

theorem upFixed_of_mem {x y : List Char}
    (hsub : ∀ c ∈ y, c = ' ' ∨ c ∈ x) (hx : UpFixed x) : UpFixed y := by
  intro c hc
  rcases hsub c hc with h | h
  · rw [h]; decide
  · exact hx c h

theorem punctFixed_of_mem {x y : List Char}
    (hsub : ∀ c ∈ y, c = ' ' ∨ c ∈ x) (hx : PunctFixed x) : PunctFixed y := by
  intro c hc
  rcases hsub c hc with h | h
  · rw [h]; decide
  · exact hx c h

theorem upFixed_map (x : List Char) : UpFixed (x.map upChar) := by
  intro c hc
  obtain ⟨d, _, he⟩ := List.mem_map.mp hc
  rw [← he]
  exact upChar_idem d

theorem punctFixed_map (x : List Char) : PunctFixed (x.map punctFix) := by
  intro c hc
  obtain ⟨d, _, he⟩ := List.mem_map.mp hc
  rw [← he]
  exact punctFix_idem d

theorem punctFixed_collapse {x : List Char} (hx : PunctFixed x) :
    PunctFixed (collapseWs x) :=
  punctFixed_of_mem (fun _ hc => mem_collapseWs hc) hx

theorem punctFixed_mapUp {x : List Char} (hx : PunctFixed x) :
    PunctFixed (x.map upChar) := by
  intro c hc
  obtain ⟨d, hd, he⟩ := List.mem_map.mp hc
  rw [← he]
  exact punctFix_upChar (hx d hd)

theorem wsOnly_mapUp {x : List Char} (hx : WsOnlySpace x) :
    WsOnlySpace (x.map upChar) := by
  intro c hc hw
  obtain ⟨d, hd, he⟩ := List.mem_map.mp hc
  rw [← he] at hw ⊢
  rw [wsChar_upChar d] at hw
  rw [hx d hd hw]
  decide

theorem normaliseCore_eq (pats : List SuffixPat) (k : Bool) (l : List Char) :
    normaliseCore pats k l =
      collapseWs (stripPunct (suffixStage pats k
        (unwrapParens ((collapseWs ((trimWs l).map punctFix)).map upChar)))) := rfl

theorem mem_normaliseCore {pats : List SuffixPat} {k : Bool} {l : List Char} {c : Char}
    (hc : c ∈ normaliseCore pats k l) :
    c = ' ' ∨ c ∈ (collapseWs ((trimWs l).map punctFix)).map upChar := by
  rw [normaliseCore_eq] at hc
  rcases mem_collapseWs hc with hc | hc
  · exact Or.inl hc
  rcases mem_suffixStage ((stripPunct_sublist _).mem hc) with hc | hc
  · exact Or.inl hc
  rcases mem_unwrapGo _ _ _ hc with hc | hc
  · exact Or.inl hc
  · exact Or.inr hc

theorem wsOnly_stage (pats : List SuffixPat) (k : Bool) (l : List Char) :
    WsOnlySpace (suffixStage pats k
      (unwrapParens ((collapseWs ((trimWs l).map punctFix)).map upChar))) := by
  have hx : WsOnlySpace ((collapseWs ((trimWs l).map punctFix)).map upChar) :=
    wsOnly_mapUp (wsOnly_collapseWs _)
  refine wsOnly_of_mem ?_ hx
  intro c hc
  rcases mem_suffixStage hc with h | h
  · exact Or.inl h
  rcases mem_unwrapGo _ _ _ h with h | h
  · exact Or.inl h
  · exact Or.inr h

theorem mem_of_head? {l : List Char} {c : Char} (h : l.head? = some c) : c ∈ l := by
  cases l with
  | nil => cases h
  | cons a t =>
    injection h with h2
    rw [← h2]
    exact List.mem_cons_self _ _

theorem mem_of_getLast? {l : List Char} {c : Char} (h : l.getLast? = some c) : c ∈ l := by
  have h2 : l.reverse.head? = some c := by rw [List.head?_reverse]; exact h
  have h3 := mem_of_head? h2
  exact (List.mem_reverse).mp h3

theorem head?_dropWhile_not (p : Char → Bool) :
    ∀ (x : List Char) {c : Char}, (x.dropWhile p).head? = some c → p c = false := by
  intro x
  induction x with
  | nil => intro c h; cases h
  | cons a t ih =>
    intro c h
    by_cases hp : p a = true
    · rw [List.dropWhile_cons_of_pos hp] at h
      exact ih h
    · rw [List.dropWhile_cons_of_neg hp] at h
      injection h with h2
      rw [← h2]
      exact bool_eq_false hp

theorem getLast?_dropWhile (p : Char → Bool) :
    ∀ x : List Char, x.dropWhile p = [] ∨ (x.dropWhile p).getLast? = x.getLast? := by
  intro x
  induction x with
  | nil => exact Or.inl rfl
  | cons a t ih =>
    by_cases hp : p a = true
    · rw [List.dropWhile_cons_of_pos hp]
      cases t with
      | nil => exact Or.inl rfl
      | cons b t2 =>
        rcases ih with h | h
        · exact Or.inl h
        · right
          rw [h, List.getLast?_cons_cons]
    · right
      rw [List.dropWhile_cons_of_neg hp]

theorem head?_dropEnd (p : Char → Bool) (u : List Char) :
    (dropEndWhile p u).head? = none ∨ (dropEndWhile p u).head? = u.head? := by
  unfold dropEndWhile
  rw [List.head?_reverse]
  rcases getLast?_dropWhile p u.reverse with h | h
  · left
    rw [h]
    rfl
  · right
    rw [h, List.getLast?_reverse]

theorem getLast?_dropEnd_not (p : Char → Bool) (u : List Char) {c : Char}
    (h : (dropEndWhile p u).getLast? = some c) : p c = false := by
  unfold dropEndWhile at h
  rw [List.getLast?_reverse] at h
  exact head?_dropWhile_not p _ h

theorem stripPunct_head_not {m : List Char} {c : Char}
    (h : (stripPunct m).head? = some c) : stripChar c = false := by
  unfold stripPunct at h
  rcases head?_dropEnd stripChar (m.dropWhile stripChar) with hh | hh
  · rw [hh] at h; cases h
  · rw [hh] at h
    exact head?_dropWhile_not stripChar m h

theorem stripPunct_getLast_not {m : List Char} {c : Char}
    (h : (stripPunct m).getLast? = some c) : stripChar c = false := by
  unfold stripPunct at h
  exact getLast?_dropEnd_not stripChar _ h

theorem collapse_strip_head {m : List Char} {c : Char} (hws : WsOnlySpace m)
    (h : (collapseWs (stripPunct m)).head? = some c) :
    stripChar c = false ∧ wsChar c = false := by
  cases hsp : (stripPunct m).head? with
  | none =>
    have hnil : stripPunct m = [] := by
      cases hl : stripPunct m with
      | nil => rfl
      | cons a t => rw [hl, List.head?_cons] at hsp; cases hsp
    rw [hnil] at h
    cases h
  | some d =>
    have hd1 : stripChar d = false := stripPunct_head_not hsp
    have hdm : d ∈ m := (stripPunct_sublist m).mem (mem_of_head? hsp)
    have hdw : wsChar d = false := by
      cases hw : wsChar d with
      | false => rfl
      | true =>
        have hsp2 := hws d hdm hw
        rw [hsp2] at hd1
        exact absurd hd1 (by decide)
    have hch := collapseWs_head hsp hdw
    rw [h] at hch
    injection hch with h2
    rw [h2]
    exact ⟨hd1, hdw⟩

theorem collapse_strip_last {m : List Char} {c : Char} (hws : WsOnlySpace m)
    (h : (collapseWs (stripPunct m)).getLast? = some c) :
    stripChar c = false ∧ wsChar c = false := by
  cases hsp : (stripPunct m).getLast? with
  | none =>
    have hnil : stripPunct m = [] := by
      cases hl : stripPunct m with
      | nil => rfl
      | cons a t =>
        rw [hl] at hsp
        rw [List.getLast?_eq_none_iff] at hsp
        cases hsp
    rw [hnil] at h
    cases h
  | some d =>
    have hd1 : stripChar d = false := stripPunct_getLast_not hsp
    have hdm : d ∈ m := (stripPunct_sublist m).mem (mem_of_getLast? hsp)
    have hdw : wsChar d = false := by
      cases hw : wsChar d with
      | false => rfl
      | true =>
        have hsp2 := hws d hdm hw
        rw [hsp2] at hd1
        exact absurd hd1 (by decide)
    have hch := collapseWs_getLast hsp hdw
    rw [h] at hch
    injection hch with h2
    rw [h2]
    exact ⟨hd1, hdw⟩

theorem normaliseCore_head_props {pats : List SuffixPat} {k : Bool} {l : List Char} {c : Char}
    (h : (normaliseCore pats k l).head? = some c) :
    stripChar c = false ∧ wsChar c = false := by
  rw [normaliseCore_eq] at h
  exact collapse_strip_head (wsOnly_stage pats k l) h

theorem normaliseCore_getLast_props {pats : List SuffixPat} {k : Bool} {l : List Char} {c : Char}
    (h : (normaliseCore pats k l).getLast? = some c) :
    stripChar c = false ∧ wsChar c = false := by
  rw [normaliseCore_eq] at h
  exact collapse_strip_last (wsOnly_stage pats k l) h

theorem normaliseCore_wsOnly (pats : List SuffixPat) (k : Bool) (l : List Char) :
    WsOnlySpace (normaliseCore pats k l) := by
  rw [normaliseCore_eq]
  exact wsOnly_collapseWs _

theorem normaliseCore_noDouble (pats : List SuffixPat) (k : Bool) (l : List Char) :
    noDoubleWs (normaliseCore pats k l) = true := by
  rw [normaliseCore_eq]
  exact noDoubleWs_collapseWs _

theorem normaliseCore_upFixed (pats : List SuffixPat) (k : Bool) (l : List Char) :
    UpFixed (normaliseCore pats k l) :=
  upFixed_of_mem (fun _ hc => mem_normaliseCore hc) (upFixed_map _)

theorem normaliseCore_punctFixed (pats : List SuffixPat) (k : Bool) (l : List Char) :
    PunctFixed (normaliseCore pats k l) :=
  punctFixed_of_mem (fun _ hc => mem_normaliseCore hc)
    (punctFixed_mapUp (punctFixed_collapse (punctFixed_map _)))

theorem normaliseCore_map_up (pats : List SuffixPat) (k : Bool) (l : List Char) :
    (normaliseCore pats k l).map upChar = normaliseCore pats k l := by
  have hfix := normaliseCore_upFixed pats k l
  have h1 : (normaliseCore pats k l).map upChar = (normaliseCore pats k l).map id :=
    List.map_congr_left (fun a ha => hfix a ha)
  rw [h1, List.map_id]

theorem headOk_core (pats : List SuffixPat) (k : Bool) (l : List Char) :
    headOk (normaliseCore pats k l) = true := by
  cases hr : normaliseCore pats k l with
  | nil => rfl
  | cons c t =>
    have hh : (normaliseCore pats k l).head? = some c := by
      rw [hr]
      rfl
    have hp := normaliseCore_head_props hh
    show (!wsChar c) = true
    rw [hp.2]
    rfl

theorem lastOk_core (pats : List SuffixPat) (k : Bool) (l : List Char) :
    lastOk (normaliseCore pats k l) = true := by
  unfold lastOk
  cases hr : (normaliseCore pats k l).getLast? with
  | none => rfl
  | some c =>
    have hp := normaliseCore_getLast_props hr
    show (!wsChar c) = true
    rw [hp.2]
    rfl

/-- C9: the string returned by `normalise_company_name` never has leading
or trailing whitespace, never contains two adjacent whitespace characters,
and contains no lower-case letters — it is unchanged by upper-casing.
This holds for every input value (string or not) and both suffix
settings. -/
theorem normalise_output_invariants :
    ∀ (v : PyVal) (k : Bool),
      headOk (normalisePy v k).data = true ∧
      lastOk (normalisePy v k).data = true ∧
      noDoubleWs (normalisePy v k).data = true ∧
      (normalisePy v k).data.map upChar = (normalisePy v k).data := by
  intro v k
  cases v with
  | str s =>
    exact ⟨headOk_core suffixPatterns k s.data, lastOk_core suffixPatterns k s.data,
      normaliseCore_noDouble suffixPatterns k s.data,
      normaliseCore_map_up suffixPatterns k s.data⟩
  | intVal n => exact ⟨rfl, rfl, rfl, rfl⟩
  | boolVal b => exact ⟨rfl, rfl, rfl, rfl⟩
  | noneVal => exact ⟨rfl, rfl, rfl, rfl⟩
  | nanVal => exact ⟨rfl, rfl, rfl, rfl⟩

/-! ### Claim C2 (idempotence) -/

theorem dropWhile_eq_self {p : Char → Bool} {l : List Char}
    (h : ∀ c, l.head? = some c → p c = false) : l.dropWhile p = l := by
  cases l with
  | nil => rfl
  | cons a t =>
    have ha := h a rfl
    rw [List.dropWhile_cons_of_neg (by simp [ha])]

theorem dropEnd_eq_self {p : Char → Bool} {l : List Char}
    (h : ∀ c, l.getLast? = some c → p c = false) : dropEndWhile p l = l := by
  unfold dropEndWhile
  rw [dropWhile_eq_self (fun c hc => h c (by rw [← List.head?_reverse]; exact hc))]
  exact List.reverse_reverse l

theorem trimWs_eq_self {l : List Char}
    (h1 : ∀ c, l.head? = some c → wsChar c = false)
    (h2 : ∀ c, l.getLast? = some c → wsChar c = false) : trimWs l = l := by
  unfold trimWs
  rw [dropWhile_eq_self h1, dropEnd_eq_self h2]

theorem stripPunct_eq_self {l : List Char}
    (h1 : ∀ c, l.head? = some c → stripChar c = false)
    (h2 : ∀ c, l.getLast? = some c → stripChar c = false) : stripPunct l = l := by
  unfold stripPunct
  rw [dropWhile_eq_self h1, dropEnd_eq_self h2]

theorem map_punctFix_eq_self {l : List Char} (h : PunctFixed l) :
    l.map punctFix = l := by
  have h1 : List.map punctFix l = List.map id l :=
    List.map_congr_left (fun a ha => h a ha)
  rw [h1, List.map_id]

theorem trimWs_pad {r : List Char}
    (h1 : ∀ c, r.head? = some c → wsChar c = false)
    (h2 : ∀ c, r.getLast? = some c → wsChar c = false) :
    trimWs (' ' :: (r ++ [' '])) = r := by
  cases r with
  | nil => decide
  | cons a t =>
    unfold trimWs
    have hws : wsChar ' ' = true := by decide
    rw [List.dropWhile_cons_of_pos hws]
    have hd : List.dropWhile wsChar (a :: t ++ [' ']) = a :: t ++ [' '] := by
      have ha := h1 a rfl
      rw [show a :: t ++ [' '] = a :: (t ++ [' ']) from rfl,
        List.dropWhile_cons_of_neg (by simp [ha])]
    rw [hd]
    unfold dropEndWhile
    rw [show ((a :: t) ++ [' ']).reverse = ' ' :: (a :: t).reverse by
      rw [List.reverse_append]
      rfl]
    rw [List.dropWhile_cons_of_pos hws,
      dropWhile_eq_self (fun c hc => h2 c (by rw [← List.head?_reverse]; exact hc)),
      List.reverse_reverse]

theorem normaliseCore_fix {pats : List SuffixPat} {k : Bool} {r : List Char}
    (hws : WsOnlySpace r) (hnd : noDoubleWs r = true)
    (hup : UpFixed r) (hpf : PunctFixed r)
    (hh : ∀ c, r.head? = some c → stripChar c = false ∧ wsChar c = false)
    (hl : ∀ c, r.getLast? = some c → stripChar c = false ∧ wsChar c = false)
    (hu : unwrapParens r = r)
    (hs : k = true →
      stripAllSuffixes pats (' ' :: (r ++ [' '])) = ' ' :: (r ++ [' '])) :
    normaliseCore pats k r = r := by
  have e1 : trimWs r = r :=
    trimWs_eq_self (fun c hc => (hh c hc).2) (fun c hc => (hl c hc).2)
  have e2 : r.map punctFix = r := map_punctFix_eq_self hpf
  have e3 : collapseWs r = r := collapseWs_eq_self hws hnd
  have e4 : r.map upChar = r := by
    have h1 : List.map upChar r = List.map id r :=
      List.map_congr_left (fun a ha => hup a ha)
    rw [h1, List.map_id]
  have e6 : suffixStage pats k r = r := by
    unfold suffixStage
    by_cases hk : k = true
    · rw [if_pos hk, hs hk,
        trimWs_pad (fun c hc => (hh c hc).2) (fun c hc => (hl c hc).2)]
    · rw [if_neg hk]
  have e7 : stripPunct r = r :=
    stripPunct_eq_self (fun c hc => (hh c hc).1) (fun c hc => (hl c hc).1)
  rw [normaliseCore_eq, e1, e2, e3, e4, hu, e6, e7, e3]

/-- C2 counterexample: normalisation is not idempotent.  For the nested
input "((A))" the paren-unwrapping regex consumes only the outer
parentheses (its content class stops at the first closing parenthesis), so
the first pass returns "(A )", which still contains a well-formed group; a
second pass normalises it further, to "A". -/
theorem normalise_not_idempotent :
    normalise_company_name (normalise_company_name "((A))" true) true ≠
      normalise_company_name "((A))" true := by decide

/-- C2 (amended): normalisation is idempotent at precisely the points
where its output is already stable for the two rescanning passes: if the
normalised output is a fixpoint of the paren-unwrapping substitution and —
when `strip_suffixes` is set — the suffix-pattern pass leaves the padded
output unchanged, then normalising a second time returns the same string.
(Unconditional idempotence fails; see the counterexample.) -/
theorem normalise_idempotent_of_stable (s : String) (k : Bool)
    (hu : unwrapParens (normalise_company_name s k).data =
      (normalise_company_name s k).data)
    (hs : k = true →
      stripAllSuffixes suffixPatterns
          (' ' :: ((normalise_company_name s k).data ++ [' '])) =
        ' ' :: ((normalise_company_name s k).data ++ [' '])) :
    normalise_company_name (normalise_company_name s k) k =
      normalise_company_name s k := by
  show (⟨normaliseCore suffixPatterns k (normaliseCore suffixPatterns k s.data)⟩ : String) =
    ⟨normaliseCore suffixPatterns k s.data⟩
  refine congrArg String.mk ?_
  refine normaliseCore_fix (normaliseCore_wsOnly _ _ _) (normaliseCore_noDouble _ _ _)
    (normaliseCore_upFixed _ _ _) (normaliseCore_punctFixed _ _ _)
    (fun c hc => normaliseCore_head_props hc)
    (fun c hc => normaliseCore_getLast_props hc) hu hs

/-- C2 witness: a stable point ("Acme Ltd" normalises to "ACME", which no
second pass changes). -/
theorem normalise_idempotent_of_stable_witness :
    (unwrapParens (normalise_company_name "Acme Ltd" true).data =
      (normalise_company_name "Acme Ltd" true).data) ∧
    (stripAllSuffixes suffixPatterns
        (' ' :: ((normalise_company_name "Acme Ltd" true).data ++ [' '])) =
      ' ' :: ((normalise_company_name "Acme Ltd" true).data ++ [' '])) ∧
    normalise_company_name (normalise_company_name "Acme Ltd" true) true =
      normalise_company_name "Acme Ltd" true :=
  ⟨by decide, by decide,
   normalise_idempotent_of_stable "Acme Ltd" true (by decide) (fun _ => by decide)⟩

/-! ### Claim C8 (parenthesis unwrapping) -/

theorem dropWhile_ne_nil_of_exists {p : Char → Bool} {m : List Char}
    (h : ∃ c ∈ m, p c = false) : m.dropWhile p ≠ [] := by
  intro hn
  rw [List.dropWhile_eq_nil_iff] at hn
  obtain ⟨c, hc, hpc⟩ := h
  rw [hn c hc] at hpc
  cases hpc

theorem dropWhile_append_of_ne {p : Char → Bool} {a : List Char} (b : List Char)
    (h : a.dropWhile p ≠ []) : (a ++ b).dropWhile p = a.dropWhile p ++ b := by
  rw [List.dropWhile_append, if_neg]
  intro hif
  exact h (List.isEmpty_iff.mp hif)

theorem takeWhile_append_of_ne {p : Char → Bool} {a : List Char} (b : List Char)
    (h : a.dropWhile p ≠ []) : (a ++ b).takeWhile p = a.takeWhile p := by
  rw [List.takeWhile_append, if_neg]
  intro hif
  apply h
  have hlen := congrArg List.length (List.takeWhile_append_dropWhile p a)
  rw [List.length_append, hif] at hlen
  have : (a.dropWhile p).length = 0 := by omega
  exact List.eq_nil_of_length_eq_zero this

theorem dropWhile_append_all {p : Char → Bool} {a : List Char} (b : List Char)
    (h : ∀ c ∈ a, p c = true) : (a ++ b).dropWhile p = b.dropWhile p := by
  rw [List.dropWhile_append, if_pos]
  rw [List.isEmpty_iff, List.dropWhile_eq_nil_iff]
  exact h

theorem dropEnd_all {p : Char → Bool} {u : List Char}
    (h : ∀ c ∈ u, p c = true) : dropEndWhile p u = [] := by
  unfold dropEndWhile
  rw [List.dropWhile_eq_nil_iff.mpr (fun c hc => h c ((List.mem_reverse).mp hc))]
  rfl

theorem dropEnd_append {p : Char → Bool} (a b : List Char)
    (h : b.reverse.dropWhile p ≠ []) :
    dropEndWhile p (a ++ b) = a ++ dropEndWhile p b := by
  unfold dropEndWhile
  rw [List.reverse_append, dropWhile_append_of_ne _ h, List.reverse_append,
    List.reverse_reverse]

theorem dropEnd_decomp {p : Char → Bool} {u : List Char} (h : u.dropWhile p ≠ []) :
    dropEndWhile p u = u.takeWhile p ++ dropEndWhile p (u.dropWhile p) := by
  have hex : ∃ c ∈ (u.dropWhile p).reverse, p c = false := by
    obtain ⟨d, w, hd⟩ := List.exists_cons_of_ne_nil h
    refine ⟨d, ?_, ?_⟩
    · rw [List.mem_reverse, hd]
      exact List.mem_cons_self _ _
    · exact head?_dropWhile_not p u (by rw [hd]; rfl)
  conv_lhs => rw [← List.takeWhile_append_dropWhile p u]
  exact dropEnd_append _ _ (dropWhile_ne_nil_of_exists hex)

theorem dropEnd_cons_of_neg {p : Char → Bool} {c0 : Char} (u : List Char)
    (h : p c0 = false) : dropEndWhile p (c0 :: u) = c0 :: dropEndWhile p u := by
  unfold dropEndWhile
  rw [show (c0 :: u).reverse = u.reverse ++ [c0] from by
    rw [← List.reverse_reverse (c0 :: u), List.reverse_cons]
    rw [List.reverse_reverse]]
  rw [List.dropWhile_append]
  by_cases he : (u.reverse.dropWhile p).isEmpty = true
  · rw [if_pos he]
    rw [List.isEmpty_iff.mp he]
    rw [List.dropWhile_cons_of_neg (by simp [h])]
    rfl
  · rw [if_neg he, List.reverse_append]
    rfl

theorem takeWhile_all_append {p : Char → Bool} :
    ∀ (g : List Char) (x : Char) (v : List Char), (∀ c ∈ g, p c = true) → p x = false →
      (g ++ x :: v).takeWhile p = g ∧ (g ++ x :: v).dropWhile p = x :: v := by
  intro g
  induction g with
  | nil =>
    intro x v _ hx
    constructor
    · rw [List.nil_append, List.takeWhile_cons_of_neg (by simp [hx])]
    · rw [List.nil_append, List.dropWhile_cons_of_neg (by simp [hx])]
  | cons a g2 ih =>
    intro x v hall hx
    have ha : p a = true := hall a (List.mem_cons_self _ _)
    have ih2 := ih x v (fun c hc => hall c (List.mem_cons_of_mem _ hc)) hx
    constructor
    · rw [List.cons_append, List.takeWhile_cons_of_pos ha, ih2.1]
    · rw [List.cons_append, List.dropWhile_cons_of_pos ha, ih2.2]

theorem parenGroup?_append {g v : List Char} (hg0 : g ≠ []) (hg : ')' ∉ g) :
    parenGroup? (g ++ ')' :: v) = some (g, v) := by
  have hp : ∀ c ∈ g, (!(c == ')')) = true := by
    intro c hc
    cases hcc : c == ')' with
    | false => rfl
    | true => exact absurd (beq_iff_eq.mp hcc ▸ hc) hg
  have hpr : (!(')' == ')')) = false := by decide
  have hsplit := takeWhile_all_append g ')' v hp hpr
  unfold parenGroup?
  rw [hsplit.2]
  dsimp only
  rw [if_neg (by
    rw [hsplit.1]
    intro hif
    exact hg0 (List.isEmpty_iff.mp hif))]
  rw [hsplit.1]

theorem unwrapGo_congr : ∀ (n f1 f2 : Nat) (l : List Char),
    l.length ≤ n → l.length ≤ f1 → l.length ≤ f2 → unwrapGo f1 l = unwrapGo f2 l := by
  intro n
  induction n with
  | zero =>
    intro f1 f2 l h0 _ _
    have hl : l = [] := List.eq_nil_of_length_eq_zero (Nat.le_zero.mp h0)
    subst hl
    cases f1 <;> cases f2 <;> rfl
  | succ n ih =>
    intro f1 f2 l h0 h1 h2
    cases l with
    | nil => cases f1 <;> cases f2 <;> rfl
    | cons c cs =>
      cases f1 with
      | zero => simp at h1
      | succ f1 =>
        cases f2 with
        | zero => simp at h2
        | succ f2 =>
          have hcs0 : cs.length ≤ n := by simpa using h0
          have hcs1 : cs.length ≤ f1 := by simpa using h1
          have hcs2 : cs.length ≤ f2 := by simpa using h2
          simp only [unwrapGo]
          by_cases hws : wsChar c = true
          · rw [if_pos hws, if_pos hws]
            cases hd : List.dropWhile wsChar (c :: cs) with
            | nil => rfl
            | cons d cs2 =>
              dsimp only
              have hd2 : List.dropWhile wsChar cs = d :: cs2 := by
                rwa [List.dropWhile_cons_of_pos hws] at hd
              have hsub : (d :: cs2).Sublist cs := by
                rw [← hd2]
                exact List.dropWhile_sublist _
              have hdlen := hsub.length_le
              by_cases hdp : d = '('
              · rw [if_pos hdp, if_pos hdp]
                cases hpg : parenGroup? cs2 with
                | none =>
                  dsimp only
                  rw [ih f1 f2 (d :: cs2) (le_trans hdlen hcs0)
                    (le_trans hdlen hcs1) (le_trans hdlen hcs2)]
                | some pr =>
                  obtain ⟨content, r2⟩ := pr
                  dsimp only
                  have hx1 : (r2.dropWhile wsChar).length ≤ r2.length :=
                    (List.dropWhile_sublist _).length_le
                  have hx2 : r2.length ≤ cs2.length :=
                    (parenGroup?_sublists hpg).2.length_le
                  have hx3 : cs2.length ≤ cs.length := by
                    have := hdlen
                    simp only [List.length_cons] at this
                    omega
                  have hxx : (r2.dropWhile wsChar).length ≤ cs.length := by omega
                  rw [ih f1 f2 (r2.dropWhile wsChar) (le_trans hxx hcs0)
                    (le_trans hxx hcs1) (le_trans hxx hcs2)]
              · rw [if_neg hdp, if_neg hdp]
                rw [ih f1 f2 (d :: cs2) (le_trans hdlen hcs0)
                  (le_trans hdlen hcs1) (le_trans hdlen hcs2)]
          · rw [if_neg hws, if_neg hws]
            by_cases hcp : c = '('
            · rw [if_pos hcp, if_pos hcp]
              cases hpg : parenGroup? cs with
              | none =>
                dsimp only
                rw [ih f1 f2 cs hcs0 hcs1 hcs2]
              | some pr =>
                obtain ⟨content, r2⟩ := pr
                dsimp only
                have hx1 : (r2.dropWhile wsChar).length ≤ r2.length :=
                  (List.dropWhile_sublist _).length_le
                have hx2 : r2.length ≤ cs.length :=
                  (parenGroup?_sublists hpg).2.length_le
                have hxx : (r2.dropWhile wsChar).length ≤ cs.length := by omega
                rw [ih f1 f2 (r2.dropWhile wsChar) (le_trans hxx hcs0)
                  (le_trans hxx hcs1) (le_trans hxx hcs2)]
            · rw [if_neg hcp, if_neg hcp]
              rw [ih f1 f2 cs hcs0 hcs1 hcs2]

theorem unwrapGo_eq_unwrapParens {f : Nat} {l : List Char} (h : l.length ≤ f) :
    unwrapGo f l = unwrapParens l :=
  unwrapGo_congr f f l.length l h h (Nat.le_refl _)

theorem unwrap_group_nil {g v : List Char} (hg0 : g ≠ []) (hg : ')' ∉ g) :
    unwrapParens ('(' :: (g ++ ')' :: v)) =
      ' ' :: (g ++ ' ' :: unwrapParens (v.dropWhile wsChar)) := by
  show unwrapGo ('(' :: (g ++ ')' :: v)).length ('(' :: (g ++ ')' :: v)) = _
  rw [List.length_cons]
  simp only [unwrapGo]
  rw [if_neg (by decide : ¬ wsChar '(' = true)]
  rw [if_pos trivial, parenGroup?_append hg0 hg]
  dsimp only
  have hb : (v.dropWhile wsChar).length ≤ (g ++ ')' :: v).length := by
    have h1 : (v.dropWhile wsChar).length ≤ v.length := (List.dropWhile_sublist _).length_le
    simp only [List.length_append, List.length_cons]
    omega
  rw [unwrapGo_eq_unwrapParens hb]

theorem unwrap_group_main : ∀ (n : Nat) (u g v : List Char), u.length ≤ n →
    '(' ∉ u → g ≠ [] → ')' ∉ g →
    unwrapParens (u ++ '(' :: (g ++ ')' :: v)) =
      dropEndWhile wsChar u ++ ' ' :: (g ++ ' ' :: unwrapParens (v.dropWhile wsChar)) := by
  intro n
  induction n with
  | zero =>
    intro u g v h0 hu hg0 hg
    have hun : u = [] := List.eq_nil_of_length_eq_zero (Nat.le_zero.mp h0)
    subst hun
    rw [List.nil_append, unwrap_group_nil hg0 hg]
    rfl
  | succ n ih =>
    intro u g v h0 hu hg0 hg
    cases u with
    | nil =>
      rw [List.nil_append, unwrap_group_nil hg0 hg]
      rfl
    | cons c0 u2 =>
      have hu2n : u2.length ≤ n := by simpa using h0
      have hu2 : '(' ∉ u2 := fun hm => hu (List.mem_cons_of_mem _ hm)
      have hc0 : ¬ c0 = '(' := fun he => hu (he ▸ List.mem_cons_self _ _)
      show unwrapGo ((c0 :: u2) ++ '(' :: (g ++ ')' :: v)).length
          ((c0 :: u2) ++ '(' :: (g ++ ')' :: v)) = _
      rw [List.cons_append, List.length_cons]
      simp only [unwrapGo]
      by_cases hws : wsChar c0 = true
      · rw [if_pos hws]
        by_cases hall : ∀ c ∈ u2, wsChar c = true
        · have hdws : List.dropWhile wsChar (c0 :: (u2 ++ '(' :: (g ++ ')' :: v))) =
              '(' :: (g ++ ')' :: v) := by
            rw [List.dropWhile_cons_of_pos hws, dropWhile_append_all _ hall,
              List.dropWhile_cons_of_neg (by decide)]
          rw [hdws]
          dsimp only
          rw [if_pos rfl, parenGroup?_append hg0 hg]
          dsimp only
          have hb : (v.dropWhile wsChar).length ≤ (u2 ++ '(' :: (g ++ ')' :: v)).length := by
            have h1 : (v.dropWhile wsChar).length ≤ v.length :=
              (List.dropWhile_sublist _).length_le
            simp only [List.length_append, List.length_cons]
            omega
          rw [unwrapGo_eq_unwrapParens hb]
          rw [dropEnd_all (fun c hc => by
            rcases List.mem_cons.mp hc with h | h
            · exact h ▸ hws
            · exact hall c h)]
          rfl
        · have hex : ∃ c ∈ u2, wsChar c = false := by
            by_contra hcon
            apply hall
            intro c hc
            by_cases hcw : wsChar c = true
            · exact hcw
            · exact absurd ⟨c, hc, bool_eq_false hcw⟩ hcon
          have hne : u2.dropWhile wsChar ≠ [] := dropWhile_ne_nil_of_exists hex
          obtain ⟨d, w2, hdw⟩ := List.exists_cons_of_ne_nil hne
          have hscr : List.dropWhile wsChar (c0 :: (u2 ++ '(' :: (g ++ ')' :: v))) =
              d :: (w2 ++ '(' :: (g ++ ')' :: v)) := by
            rw [List.dropWhile_cons_of_pos hws, dropWhile_append_of_ne _ hne, hdw,
              List.cons_append]
          rw [hscr]
          dsimp only
          have hdmem : d ∈ u2 := by
            have hmem : d ∈ u2.dropWhile wsChar := by
              rw [hdw]
              exact List.mem_cons_self _ _
            exact (List.dropWhile_sublist _).mem hmem
          have hdne : ¬ d = '(' := fun he => hu (List.mem_cons_of_mem _ (he ▸ hdmem))
          rw [if_neg hdne]
          have hne2 : (c0 :: u2).dropWhile wsChar ≠ [] := by
            rw [List.dropWhile_cons_of_pos hws]
            exact hne
          have htake : (c0 :: (u2 ++ '(' :: (g ++ ')' :: v))).takeWhile wsChar =
              (c0 :: u2).takeWhile wsChar := by
            rw [← List.cons_append, takeWhile_append_of_ne _ hne2]
          rw [htake]
          have hlen1 : (d :: w2).length ≤ u2.length := by
            rw [← hdw]
            exact (List.dropWhile_sublist _).length_le
          have hbound : (d :: (w2 ++ '(' :: (g ++ ')' :: v))).length ≤
              (u2 ++ '(' :: (g ++ ')' :: v)).length := by
            simp only [List.length_cons] at hlen1
            simp only [List.length_cons, List.length_append]
            omega
          rw [unwrapGo_eq_unwrapParens hbound]
          rw [show d :: (w2 ++ '(' :: (g ++ ')' :: v)) =
            (d :: w2) ++ '(' :: (g ++ ')' :: v) from rfl]
          rw [ih (d :: w2) g v (le_trans hlen1 hu2n)
            (fun hm => hu2 ((List.dropWhile_sublist wsChar).mem (hdw ▸ hm))) hg0 hg]
          rw [dropEnd_decomp hne2, List.dropWhile_cons_of_pos hws, hdw,
            List.append_assoc]
      · rw [if_neg hws, if_neg hc0]
        rw [unwrapGo_eq_unwrapParens (Nat.le_refl _)]
        rw [ih u2 g v hu2n hu2 hg0 hg]
        rw [dropEnd_cons_of_neg _ (bool_eq_false hws), List.cons_append]

/-- C8: line 31's substitution unwraps each well-formed, non-nested,
single-level parenthesised group, replacing the group (with the whitespace
the `\s*` wrappers absorb around it) by a space, the group's inner
content, and a space, and continues after it; and on the spec's example
the full normaliser yields "ACME HOLDINGS". -/
theorem unwrap_parenthesised_group :
    (∀ u g v : List Char, '(' ∉ u → g ≠ [] → ')' ∉ g →
      unwrapParens (u ++ '(' :: (g ++ ')' :: v)) =
        dropEndWhile wsChar u ++ ' ' :: (g ++ ' ' :: unwrapParens (v.dropWhile wsChar))) ∧
    normalise_company_name "Acme (Holdings) PLC" true = "ACME HOLDINGS" :=
  ⟨fun u g v hu hg0 hg => unwrap_group_main u.length u g v (Nat.le_refl _) hu hg0 hg,
   by decide⟩

/-- C8 witness: the spec's example group, evaluated through the general
statement at concrete lists. -/
theorem unwrap_parenthesised_group_witness :
    ('(' ∉ "ACME ".data) ∧ ("HOLDINGS".data ≠ []) ∧ (')' ∉ "HOLDINGS".data) ∧
    unwrapParens ("ACME ".data ++ '(' :: ("HOLDINGS".data ++ ')' :: " PLC".data)) =
      dropEndWhile wsChar "ACME ".data ++
        ' ' :: ("HOLDINGS".data ++ ' ' :: unwrapParens (" PLC".data.dropWhile wsChar)) :=
  ⟨by decide, by decide, by decide,
   unwrap_parenthesised_group.1 "ACME ".data "HOLDINGS".data " PLC".data
     (by decide) (by decide) (by decide)⟩

end CompanyIntelligence
